import Mathlib

/- Formal model of the ResStock batch-ingestion pipeline of this repository
   (src/pullResStockLoad.py and its variants).

   Modelling conventions:
   * Python strings are embedded as lists of characters (`Str`).
   * A pandas DataFrame of timeseries rows is a `List Row`; the parquet
     content of a remote object is a `List RawRow`.
   * The anonymous S3 filesystem is a function `Store` from path to the
     outcome of `pd.read_parquet` (rows, or a raised error).
   * Raised Python exceptions are `Except PyErr`.
   * Machine floats are modelled as rationals.
-/

namespace ResStock

/-- Python `str`, embedded as a list of characters. -/
abbrev Str := List Char

/-- Coercion from a Lean string literal to the embedding. -/
def str (s : String) : Str := s.data

/-- Python exceptions raised by the pipeline. -/
inductive PyErr where
  | fetchError
  | parseError
  | valueError
  | jsonDecodeError
deriving DecidableEq

instance {ε α : Type _} [DecidableEq ε] [DecidableEq α] : DecidableEq (Except ε α) := by
  intro x y
  cases x <;> cases y
  case error.error a b =>
    exact if h : a = b then .isTrue (by rw [h]) else .isFalse (by simp [h])
  case ok.ok a b =>
    exact if h : a = b then .isTrue (by rw [h]) else .isFalse (by simp [h])
  case error.ok a b => exact .isFalse (by simp)
  case ok.error a b => exact .isFalse (by simp)

/-- Test `s.endswith(suf)` on character lists. -/
def endsWith (s suf : Str) : Bool :=
  decide (suf.length ≤ s.length) && decide (s.drop (s.length - suf.length) = suf)

/-- Python `str.removesuffix`: drop `suf` from the end of `s` when it is a
    suffix, otherwise return `s` unchanged. -/
def removesuffix (s suf : Str) : Str :=
  if endsWith s suf then s.take (s.length - suf.length) else s

/-- Model of `os.path.basename` (equivalently `Path(p).name` on these
    forward-slash S3 paths): the part after the last slash. -/
def basename (p : Str) : Str :=
  (p.reverse.takeWhile (fun c => c ≠ '/')).reverse

/-- Model of `Path(p).stem`: the final component with its last extension
    removed; the extension dot must be neither the first nor the last
    character of the name (pathlib's `0 < name.rfind('.') < len(name)-1`). -/
def stem (p : Str) : Str :=
  let n := basename p
  let sufLen := (n.reverse.takeWhile (fun c => c ≠ '.')).length
  let i := n.length - 1 - sufLen
  if ('.' ∈ n ∧ 0 < i ∧ 0 < sufLen) then n.take i else n

/-- Source `extract_building_id` (src/pullResStockLoad.py:37):
    `os.path.basename(path).removesuffix("-0.parquet").removesuffix(".parquet")`. -/
def extract_building_id (path : Str) : Str :=
  removesuffix (removesuffix (basename path) (str "-0.parquet")) (str ".parquet")

/-- The id a path is filtered under in `filter_allowed`
    (src/pullResStockLoad.py:87): `Path(p).stem.split("-")[0]`. -/
def stemSplitId (p : Str) : Str :=
  (stem p).takeWhile (fun c => c ≠ '-')

/-- Source `filter_allowed` (src/pullResStockLoad.py:80): keep the paths whose
    stem-derived id belongs to the allowed set. -/
def filter_allowed (file_paths : List Str) (allowed_ids : List Str) : List Str :=
  file_paths.filter (fun p => decide (stemSplitId p ∈ allowed_ids))

/-- Chunking loop of source `batched` (src/pullResStockLoad.py:74), written
    with structural recursion on a fuel bound (the loop consumes at least one
    element per iteration when the slice is nonempty, so a fuel of the list
    length suffices and `batchedNat` below is fuel-independent). -/
def batchedAux : Nat → List Str → Nat → List (List Str)
  | 0, _, _ => []
  | fuel + 1, l, n =>
    if n = 0 ∨ l = [] then [] else l.take n :: batchedAux fuel (l.drop n) n

/-- Chunking of source `batched` for a non-negative size: repeatedly take
    `islice(it, n)` until it is empty. With `n = 0` the first slice is empty,
    so the loop yields nothing. -/
def batchedNat (l : List Str) (n : Nat) : List (List Str) :=
  batchedAux l.length l n

/-- Source `batched` as invoked from Python: `itertools.islice` raises
    `ValueError` for a negative size; otherwise the chunking loop runs. -/
def batched (l : List Str) (n : Int) : Except PyErr (List (List Str)) :=
  if n < 0 then .error .valueError else .ok (batchedNat l n.toNat)

/-- Timeseries row of the in-memory DataFrame: building id tag, timestamp in
    minutes, and the projected numeric measurement columns as rationals. -/
structure Row where
  building_id : Str
  timestamp : Nat
  vals : List Rat
deriving DecidableEq

/-- Model of `pd.to_datetime(...).dt.floor("h")` on a timestamp in minutes. -/
def floorHour (t : Nat) : Nat := 60 * (t / 60)

/-- Grouping key of `df.groupby(["building_id", "timestamp"])`: pandas sorts
    group keys lexicographically, building id first. -/
abbrev GKey := Str ×ₗ Nat

/-- Key of one row. -/
def rowKey (r : Row) : GKey := toLex (r.building_id, r.timestamp)

/-- Columnwise sum of the numeric columns of a group, as pandas `.sum()`. -/
def sumVals : List (List Rat) → List Rat
  | [] => []
  | v :: vs => vs.foldl (List.zipWith (· + ·)) v

/-- Measurement columns of the rows of one group. -/
def groupVals (rows : List Row) (k : GKey) : List (List Rat) :=
  (rows.filter (fun r => decide (rowKey r = k))).map Row.vals

/-- Effect of `df["timestamp"] = pd.to_datetime(df["timestamp"]).dt.floor("h")`. -/
def floorRows (df : List Row) : List Row :=
  df.map (fun r => { r with timestamp := floorHour r.timestamp })

/-- Distinct group keys of a frame in the ascending order pandas emits
    groups in. -/
def aggKeys (df : List Row) : List GKey :=
  List.insertionSort (· ≤ ·) (df.map rowKey).dedup

/-- Source `hourly_aggregate` (src/pullResStockLoad.py:54): floor timestamps
    to the hour, then `groupby(["building_id","timestamp"])[numeric].sum()`;
    pandas emits one row per group, group keys sorted ascending. -/
def hourly_aggregate (df : List Row) : List Row :=
  (aggKeys (floorRows df)).map
    (fun k => { building_id := (ofLex k).1, timestamp := (ofLex k).2,
                vals := sumVals (groupVals (floorRows df) k) })

/-- Reduction policy of the specification: sum or mean per numeric column. -/
inductive ReducePolicy where
  | sum
  | mean
deriving DecidableEq

/-- Columnwise reduction of one group under a policy; mean divides the sum by
    the group size. -/
def reduceVals : ReducePolicy → List (List Rat) → List Rat
  | .sum, vs => sumVals vs
  | .mean, vs => (sumVals vs).map (fun x => x / (vs.length : Rat))

/-- Modelled from the spec: hourly aggregation under an explicitly configured
    reduction policy (spec section 4.3). The source has only the sum
    reduction (`hourly_aggregate` above); the mean reduction appears in no
    source file, so it is modelled from the spec's words here. -/
def hourly_aggregate_policy (pol : ReducePolicy) (df : List Row) : List Row :=
  (aggKeys (floorRows df)).map
    (fun k => { building_id := (ofLex k).1, timestamp := (ofLex k).2,
                vals := reduceVals pol (groupVals (floorRows df) k) })

/-- Content of one remote parquet object, projected to the requested columns:
    a timestamp in minutes plus the numeric measurement columns. -/
abbrev RawRow := Nat × List Rat

/-- The anonymous S3 filesystem: `pd.read_parquet(f"s3://{path}", ...)` either
    returns the object's rows or raises (network, missing object, malformed
    payload). -/
abbrev Store := Str → Except PyErr (List RawRow)

/-- Attach the derived building id as a column (`df["building_id"] = ...`). -/
def tagRows (bid : Str) (raw : List RawRow) : List Row :=
  raw.map (fun rr => { building_id := bid, timestamp := rr.1, vals := rr.2 })

/-- Inner `load_and_process` of source `read_batch`
    (src/pullResStockLoad.py:65): derive the id, fetch, tag, aggregate.
    There is no try/except here: an error raised by the fetch propagates. -/
def load_and_process (store : Store) (path : Str) : Except PyErr (List Row) := do
  let raw ← store path
  pure (hourly_aggregate (tagRows (extract_building_id path) raw))

/-- Source `read_batch` (src/pullResStockLoad.py:62): process every path of
    the batch in order and concatenate the frames; the list comprehension
    propagates the first raised error, aborting the whole batch. -/
def read_batch (store : Store) (batch_paths : List Str) : Except PyErr (List Row) := do
  let frames ← batch_paths.mapM (load_and_process store)
  pure frames.flatten

/-- Manifest entry written by `process_batch`
    (src/pullResStockLoad.py:106). -/
structure Entry where
  path : Str
  building_ids : List Str
  state : Str
deriving DecidableEq

/-- Source `process_batch` (src/pullResStockLoad.py:92): read the batch;
    an empty frame yields the empty marker `\x7b\x7d` (here `none`) before any file
    is written; otherwise the frame is written to `output_file` and a manifest
    entry is returned. The rows to write are returned alongside the entry so
    the caller's state transition can apply the write. -/
def process_batch (store : Store) (batch_paths : List Str) (state : Str)
    (output_file : Str) : Except PyErr (Option (Entry × List Row)) := do
  let df ← read_batch store batch_paths
  if df = [] then pure none
  else pure (some ({ path := output_file,
                     building_ids := batch_paths.map extract_building_id,
                     state := state }, df))

/-- In-memory manifest: batch index to entry, in insertion order. -/
abbrev Manifest := List (Nat × Entry)

/-- Test `i in manifest`. -/
def hasKey (m : Manifest) (i : Nat) : Bool := m.any (fun kv => kv.1 = i)

/-- Lookup `manifest[i]`. -/
def lookupKey : Manifest → Nat → Option Entry
  | [], _ => none
  | kv :: m, i => if kv.1 = i then some kv.2 else lookupKey m i

/-- Parquet outputs on disk: path to rows, newest write first. -/
abbrev FileSys := List (Str × List Row)

/-- Current content of an output file. -/
def lookupFile : FileSys → Str → Option (List Row)
  | [], _ => none
  | f :: fs, p => if f.1 = p then some f.2 else lookupFile fs p

/-- Overwrite of an output file (`df.to_parquet(output_file)`). -/
def setFile (fsys : FileSys) (p : Str) (rows : List Row) : FileSys :=
  (p, rows) :: fsys

/-- Decimal rendering loop, structurally recursive on a fuel bound (the
    argument shrinks by a factor of ten per step, so a fuel of the number
    itself suffices and `natToStr` below is fuel-independent). -/
def natToStrAux : Nat → Nat → Str
  | 0, n => [Nat.digitChar n]
  | fuel + 1, n =>
    if n < 10 then [Nat.digitChar n]
    else natToStrAux fuel (n / 10) ++ [Nat.digitChar (n % 10)]

/-- Decimal rendering of a natural number, as Python `str(i)`. -/
def natToStr (n : Nat) : Str := natToStrAux n n

/-- Python format `f"\x7bi:03\x7d"`: left-pad the decimal rendering with zeros to
    width 3 (wider numbers are not truncated). -/
def pad3 (n : Nat) : Str := List.replicate (3 - (natToStr n).length) '0' ++ natToStr n

/-- Output file path `output_dir / f"\x7bstate\x7d_batch_\x7bi:03\x7d.parquet"`
    (src/pullResStockLoad.py:146). -/
def outputFileName (output_dir state : Str) (i : Nat) : Str :=
  output_dir ++ ('/' :: (state ++ str "_batch_" ++ pad3 i ++ str ".parquet"))

/-- Mutable state the orchestrator touches: the in-memory manifest ledger and
    the written parquet outputs. -/
structure SysState where
  manifest : Manifest
  files : FileSys
deriving DecidableEq

/-- Completion handling of one submitted batch
    (src/pullResStockLoad.py:149): a raised error is caught and printed
    (state unchanged, index left pending), an empty result is dropped, and
    otherwise the output file is written and then the manifest entry is
    recorded. -/
def stepState (store : Store) (state output_dir : Str) (i : Nat)
    (batch : List Str) (st : SysState) : SysState :=
  match process_batch store batch state (outputFileName output_dir state i) with
  | .error _ => st
  | .ok none => st
  | .ok (some (entry, df)) =>
    { manifest := st.manifest ++ [(i, entry)],
      files := setFile st.files (outputFileName output_dir state i) df }

/-- Batch loop of source `process_state_in_batches`
    (src/pullResStockLoad.py:141): an index already in the manifest is
    skipped; otherwise the batch is submitted and handled by `stepState`.
    The per-batch effects commute across distinct indices, so the pool's
    arbitrary completion order is modelled by submission order. Returns the
    final state and the submitted batch indices. -/
def runBatches (store : Store) (state output_dir : Str) :
    List (Nat × List Str) → SysState → SysState × List Nat
  | [], st => (st, [])
  | (i, batch) :: rest, st =>
    if hasKey st.manifest i then runBatches store state output_dir rest st
    else
      let res := runBatches store state output_dir rest
        (stepState store state output_dir i batch st)
      (res.1, i :: res.2)

/-- Source `process_state_in_batches` (src/pullResStockLoad.py:115) after its
    external calls are taken as parameters: `file_paths` stands for the
    `fs.glob` listing, `allowed_ids` for `is_electric_only`, and `st.manifest`
    for the ledger returned by `load_manifest`. Paths are filtered, chunked,
    enumerated, and run through the batch loop. -/
def process_state_in_batches (store : Store) (state output_dir : Str)
    (allowed_ids : List Str) (file_paths : List Str) (batch_size : Nat)
    (st : SysState) : SysState × List Nat :=
  runBatches store state output_dir
    (List.enum (batchedNat (filter_allowed file_paths allowed_ids) batch_size)) st

/-- File-system operations a manifest save can perform. `truncate` is the
    effect of `open(path, "w")`, `writeAll` the serialized dump, `rename` an
    atomic replace (present in the vocabulary so that the write-to-temp-then-
    rename discipline is expressible). -/
inductive FsOp where
  | truncate (path : Str)
  | writeAll (path : Str) (content : Str)
  | rename (src dst : Str)
deriving DecidableEq

/-- Test for a rename operation. -/
def FsOp.isRename : FsOp → Bool
  | .rename _ _ => true
  | _ => false

/-- JSON rendering of a string value. -/
def renderStr (s : Str) : Str := '"' :: (s ++ ['"'])

/-- JSON rendering of one manifest entry, as `json.dump` lays out the dict
    built in `process_batch` (whitespace of `indent=2` omitted). -/
def renderEntry (e : Entry) : Str :=
  str "\x7b\"path\": " ++ renderStr e.path ++ str ", \"building_ids\": [" ++
    (List.intercalate (str ", ") (e.building_ids.map renderStr)) ++
    str "], \"state\": " ++ renderStr e.state ++ ['\x7d']

/-- Items of the ledger in the order `sorted(manifest.items())` emits them:
    ascending by batch index. -/
def serializedItems (m : Manifest) : List (Nat × Entry) :=
  List.insertionSort (fun a b => a.1 ≤ b.1) m

/-- Serialization of the full ledger written by source `save_manifest`
    (src/pullResStockLoad.py:168): `json.dump(\x7bstr(k): v for k, v in
    sorted(manifest.items())\x7d, f, indent=2)`, whitespace omitted. -/
def serialize_manifest (m : Manifest) : Str :=
  '\x7b' :: (List.intercalate (str ", ")
      ((serializedItems m).map
        (fun kv => renderStr (natToStr kv.1) ++ str ": " ++ renderEntry kv.2))
    ++ ['\x7d'])

/-- File-system trace of source `save_manifest` (src/pullResStockLoad.py:168):
    `open(manifest_path, "w")` truncates the manifest file in place, then
    `json.dump` writes the serialized ledger into it. No temporary file and no
    rename is involved. -/
def save_manifest (m : Manifest) (manifest_path : Str) : List FsOp :=
  [.truncate manifest_path, .writeAll manifest_path (serialize_manifest m)]

/-- Text files on disk, path to byte content. -/
abbrev TextFS := Str → Option Str

/-- Effect of one file-system operation. -/
def applyOp (t : TextFS) : FsOp → TextFS
  | .truncate p => fun q => if q = p then some [] else t q
  | .writeAll p s => fun q => if q = p then some ((t p).getD [] ++ s) else t q
  | .rename a b => fun q => if q = b then t a else if q = a then none else t q

/-- Effect of a trace of file-system operations; a crash after `k` operations
    is `applyOps (ops.take k) t`. -/
def applyOps (t : TextFS) (ops : List FsOp) : TextFS := ops.foldl applyOp t

/-- Bytes of a manifest file as seen by `json.load`: either they parse to a
    JSON object (string keys to entry values, the shape this pipeline writes)
    or they are malformed and `json.load` raises `JSONDecodeError`. -/
inductive FileBytes where
  | wellFormed (kvs : List (Str × Entry))
  | malformed
deriving DecidableEq

/-- Model of `json.load`: parse or raise. -/
def jsonLoad : FileBytes → Except PyErr (List (Str × Entry))
  | .wellFormed kvs => .ok kvs
  | .malformed => .error .jsonDecodeError

/-- Decimal decoding with an accumulator; used to read back the digit strings
    this pipeline produces. -/
def strToNatAcc (acc : Nat) : Str → Nat
  | [] => acc
  | c :: s => strToNatAcc (10 * acc + (c.toNat - '0'.toNat)) s

/-- Model of Python `int(k)` on the key strings at hand: a nonempty digit
    string parses, anything else raises `ValueError`. -/
def pyInt (s : Str) : Except PyErr Nat :=
  if s ≠ [] ∧ s.all (fun c => c.isDigit) then .ok (strToNatAcc 0 s)
  else .error .valueError

/-- Source `load_manifest` (src/pullResStockLoad.py:162): a missing file
    yields the empty ledger; an existing file is opened and `json.load`-ed
    with no try/except, so unparsable bytes raise, as does a non-integer key
    in `int(k)`. -/
def load_manifest (file : Option FileBytes) : Except PyErr Manifest :=
  match file with
  | none => .ok []
  | some b => do
    let kvs ← jsonLoad b
    kvs.mapM (fun kv => do pure ((← pyInt kv.1), kv.2))

/-! Concrete fixtures used by the scenario theorems below. -/

/-- Two raw records for entity A in the same clock hour, values 3.0 and 4.0. -/
def dfScenario : List Row :=
  [{ building_id := str "A", timestamp := 605, vals := [3] },
   { building_id := str "A", timestamp := 625, vals := [4] }]

/-- Store with one good object and one whose fetch raises. -/
def storeErr : Store := fun p =>
  if p = str "bad-0.parquet" then .error .fetchError else .ok [(605, [3])]

/-- Store in which every object holds a single row. -/
def storeOne : Store := fun _ => .ok [(605, [3])]

/-- Store for the empty-batch scenario. -/
def storeAB : Store := fun p =>
  if p = str "A-0.parquet" then .ok [(605, [3]), (625, [4])] else .ok [(610, [9])]

/-- Path list of the spec's concrete two-path scenario. -/
def pathsAB : List Str := [str "A-0.parquet", str "B-0.parquet"]

/-- Store in which object B-0.parquet holds zero rows. -/
def storeEmptyB : Store := fun p =>
  if p = str "B-0.parquet" then .ok [] else .ok [(605, [3])]

/-- Concrete manifest entry for scenario states. -/
def entry0 : Entry :=
  { path := str "prior.parquet", building_ids := [str "X"], state := str "CO" }

/-- Prior manifest in which batch indices 0 and 1 are done. -/
def mDone01 : Manifest := [(0, entry0), (1, entry0)]

/-- Two-entry ledger given out of key order. -/
def mUnsorted : Manifest := [(2, entry0), (0, entry0)]

/-- Text files holding a previously recorded manifest at `m.json`. -/
def tfsPrior : TextFS := fun q =>
  if q = str "m.json" then some (serialize_manifest mDone01) else none

/-- Four conforming paths for the resume scenario. -/
def paths4 : List Str :=
  [str "A-0.parquet", str "B-0.parquet", str "C-0.parquet", str "D-0.parquet"]

/-- Allowed ids for the resume scenario. -/
def ids4 : List Str := [str "A", str "B", str "C", str "D"]

/-! Helper lemmas about the string primitives. -/

theorem endsWith_append (a b : Str) : endsWith (a ++ b) b = true := by
  unfold endsWith
  have h1 : b.length ≤ (a ++ b).length := by simp
  have h2 : (a ++ b).length - b.length = a.length := by simp
  rw [h2]
  simp [List.drop_left]

theorem removesuffix_append (a b : Str) : removesuffix (a ++ b) b = a := by
  unfold removesuffix
  rw [endsWith_append]
  have h2 : (a ++ b).length - b.length = a.length := by simp
  rw [if_pos rfl, h2, List.take_left]

theorem endsWith_iff {s suf : Str} : endsWith s suf = true ↔ ∃ a, s = a ++ suf := by
  constructor
  · intro h
    unfold endsWith at h
    simp only [Bool.and_eq_true, decide_eq_true_eq] at h
    refine ⟨s.take (s.length - suf.length), ?_⟩
    conv_lhs => rw [← List.take_append_drop (s.length - suf.length) s]
    rw [h.2]
  · rintro ⟨a, rfl⟩
    exact endsWith_append a suf

theorem removesuffix_of_not_endsWith {s suf : Str} (h : endsWith s suf = false) :
    removesuffix s suf = s := by
  unfold removesuffix
  rw [h]
  simp

theorem takeWhile_append_block {p : Char → Bool} {xs : Str} (y : Char) (ys : Str)
    (hxs : ∀ c ∈ xs, p c = true) (hy : p y = false) :
    (xs ++ y :: ys).takeWhile p = xs := by
  induction xs with
  | nil => simp [List.takeWhile_cons, hy]
  | cons c cs ih =>
    have hc : p c = true := hxs c (by simp)
    simp only [List.cons_append, List.takeWhile_cons, hc, if_true]
    rw [ih (fun d hd => hxs d (by simp [hd]))]

theorem all_ne_of_not_mem {x : Char} {l : Str} (h : x ∉ l) :
    ∀ c ∈ l, (decide ¬(c = x)) = true := by
  intro c hc
  simp only [decide_eq_true_eq]
  intro hcx
  exact h (hcx ▸ hc)

theorem stem_parquet {p pre : Str} (hb : basename p = pre ++ str ".parquet")
    (hpre : pre ≠ []) : stem p = pre := by
  have hpos : 0 < pre.length := List.length_pos.mpr hpre
  have hrev : (pre ++ str ".parquet").reverse = str "teuqrap" ++ '.' :: pre.reverse := by
    rw [List.reverse_append]
    rfl
  have htw : ((pre ++ str ".parquet").reverse.takeWhile (fun c => decide ¬(c = '.'))).length
      = 7 := by
    rw [hrev, takeWhile_append_block '.' pre.reverse (by decide) (by simp)]
    rfl
  have hmem : '.' ∈ pre ++ str ".parquet" :=
    List.mem_append.mpr (Or.inr (by decide))
  have hilen : (pre ++ str ".parquet").length - 1 - 7 = pre.length := by
    simp only [List.length_append]
    have h8 : (str ".parquet").length = 8 := rfl
    omega
  unfold stem
  rw [hb]
  simp only [htw, hilen]
  rw [if_pos ⟨hmem, hpos, by norm_num⟩]
  exact List.take_left pre (str ".parquet")

theorem stemSplitId_conforming {p id : Str} (hb : basename p = id ++ str "-0.parquet")
    (hh : '-' ∉ id) : stemSplitId p = id := by
  unfold stemSplitId
  have hb2 : basename p = (id ++ str "-0") ++ str ".parquet" := by
    rw [hb, List.append_assoc]
    rfl
  rw [stem_parquet hb2 (by simp [str])]
  have heq : id ++ str "-0" = id ++ '-' :: ['0'] := rfl
  rw [heq, takeWhile_append_block '-' ['0'] (all_ne_of_not_mem hh) (by simp)]

theorem extract_conforming {p id : Str} (hb : basename p = id ++ str "-0.parquet")
    (hp : endsWith id (str ".parquet") = false) : extract_building_id p = id := by
  unfold extract_building_id
  rw [hb, removesuffix_append, removesuffix_of_not_endsWith hp]

theorem endsWith_notZero {id nstr : Str} (hne : nstr ≠ [])
    (hdig : ∀ c ∈ nstr, c.isDigit = true) (hz : nstr ≠ ['0']) :
    endsWith (id ++ '-' :: (nstr ++ str ".parquet")) (str "-0.parquet") = false := by
  by_contra hcon
  have h1 : endsWith (id ++ '-' :: (nstr ++ str ".parquet")) (str "-0.parquet") = true := by
    revert hcon
    cases endsWith (id ++ '-' :: (nstr ++ str ".parquet")) (str "-0.parquet") <;> simp
  obtain ⟨a, ha⟩ := endsWith_iff.mp h1
  have ha2 : (id ++ '-' :: nstr) ++ str ".parquet" = (a ++ str "-0") ++ str ".parquet" := by
    rw [List.append_assoc, List.append_assoc]
    exact ha
  have ha3 : id ++ '-' :: nstr = a ++ str "-0" := List.append_cancel_right ha2
  have ha4 : nstr.reverse ++ '-' :: id.reverse = '0' :: '-' :: a.reverse := by
    have := congrArg List.reverse ha3
    simpa [List.reverse_append] using this
  cases hrev : nstr.reverse with
  | nil => exact hne (by simpa using congrArg List.reverse hrev)
  | cons c w =>
    rw [hrev] at ha4
    simp only [List.cons_append, List.cons.injEq] at ha4
    obtain ⟨hc0, ha5⟩ := ha4
    cases w with
    | nil =>
      apply hz
      have : nstr.reverse = ['0'] := by rw [hrev, hc0]
      simpa using congrArg List.reverse this
    | cons c2 w2 =>
      simp only [List.cons_append, List.cons.injEq] at ha5
      have hcm : c2 ∈ nstr := by
        rw [← List.mem_reverse, hrev]
        simp
      have := hdig c2 hcm
      rw [ha5.1] at this
      exact absurd this (by decide)

theorem extract_notZero {p id nstr : Str}
    (hb : basename p = id ++ '-' :: (nstr ++ str ".parquet")) (hne : nstr ≠ [])
    (hdig : ∀ c ∈ nstr, c.isDigit = true) (hz : nstr ≠ ['0']) :
    extract_building_id p = id ++ '-' :: nstr := by
  unfold extract_building_id
  rw [hb, removesuffix_of_not_endsWith (endsWith_notZero hne hdig hz)]
  have hb2 : id ++ '-' :: (nstr ++ str ".parquet") = (id ++ '-' :: nstr) ++ str ".parquet" := by
    simp
  rw [hb2, removesuffix_append]

theorem stemSplitId_notZero {p id nstr : Str}
    (hb : basename p = id ++ '-' :: (nstr ++ str ".parquet")) (hh : '-' ∉ id) :
    stemSplitId p = id := by
  unfold stemSplitId
  have hb2 : basename p = (id ++ '-' :: nstr) ++ str ".parquet" := by
    rw [hb]
    simp
  rw [stem_parquet hb2 (by simp), takeWhile_append_block '-' nstr
    (all_ne_of_not_mem hh) (by simp)]

/-! Helper lemmas about the batch partitioner. -/

theorem batchedAux_fuel :
    ∀ (fuel fuel' : Nat) (l : List Str) (n : Nat),
      l.length ≤ fuel → l.length ≤ fuel' →
      batchedAux fuel l n = batchedAux fuel' l n := by
  intro fuel
  induction fuel with
  | zero =>
    intro fuel' l n h _
    have hl : l = [] := List.length_eq_zero.mp (Nat.le_zero.mp h)
    subst hl
    cases fuel' with
    | zero => rfl
    | succ f' =>
      show ([] : List (List Str)) = if n = 0 ∨ ([] : List Str) = [] then [] else _
      rw [if_pos (Or.inr rfl)]
  | succ f ih =>
    intro fuel' l n h h'
    by_cases hg : n = 0 ∨ l = []
    · rcases hg with hg | hg
      · cases fuel' with
        | zero =>
          have hl : l = [] := List.length_eq_zero.mp (Nat.le_zero.mp h')
          subst hl
          show (if n = 0 ∨ ([] : List Str) = [] then [] else _) = ([] : List (List Str))
          rw [if_pos (Or.inr rfl)]
        | succ f' =>
          show (if n = 0 ∨ l = [] then [] else _)
              = (if n = 0 ∨ l = [] then [] else _)
          rw [if_pos (Or.inl hg), if_pos (Or.inl hg)]
      · subst hg
        cases fuel' with
        | zero => show (if _ then _ else _) = ([] : List (List Str))
                  rw [if_pos (Or.inr rfl)]
        | succ f' =>
          show (if _ then _ else _) = (if (n = 0 ∨ ([] : List Str) = []) then [] else _)
          rw [if_pos (Or.inr rfl), if_pos (Or.inr rfl)]
    · push_neg at hg
      have hn : n ≠ 0 := hg.1
      have hl : l ≠ [] := hg.2
      have hlen : 1 ≤ l.length := List.length_pos.mpr hl
      cases fuel' with
      | zero =>
        exact absurd (Nat.le_zero.mp h') (by simpa using List.length_pos.mpr hl |>.ne')
      | succ f' =>
        show (if n = 0 ∨ l = [] then [] else l.take n :: batchedAux f (l.drop n) n)
            = (if n = 0 ∨ l = [] then [] else l.take n :: batchedAux f' (l.drop n) n)
        rw [if_neg (by simp [hn, hl]), if_neg (by simp [hn, hl])]
        have hd : (l.drop n).length ≤ f := by
          rw [List.length_drop]
          omega
        have hd' : (l.drop n).length ≤ f' := by
          rw [List.length_drop]
          omega
        rw [ih f' (l.drop n) n hd hd']

theorem batchedNat_nil (n : Nat) : batchedNat [] n = [] := rfl

theorem batchedNat_zero (l : List Str) : batchedNat l 0 = [] := by
  cases l with
  | nil => rfl
  | cons x xs =>
    show (if (0 : Nat) = 0 ∨ x :: xs = [] then []
        else (x :: xs).take 0 :: batchedAux xs.length ((x :: xs).drop 0) 0) = []
    rw [if_pos (Or.inl rfl)]

theorem batchedNat_cons {l : List Str} {n : Nat} (hn : n ≠ 0) (hl : l ≠ []) :
    batchedNat l n = l.take n :: batchedNat (l.drop n) n := by
  cases l with
  | nil => exact absurd rfl hl
  | cons x xs =>
    show (if n = 0 ∨ x :: xs = [] then [] else
        (x :: xs).take n :: batchedAux xs.length ((x :: xs).drop n) n)
      = (x :: xs).take n :: batchedNat ((x :: xs).drop n) n
    rw [if_neg (by simp [hn])]
    unfold batchedNat
    rw [batchedAux_fuel xs.length ((x :: xs).drop n).length ((x :: xs).drop n) n
      (by rw [List.length_drop]; simp; omega) (Nat.le_refl _)]

theorem batchedNat_flatten {n : Nat} (hn : n ≠ 0) (l : List Str) :
    (batchedNat l n).flatten = l := by
  by_cases hl : l = []
  · subst hl
    rw [batchedNat_nil]
    rfl
  · rw [batchedNat_cons hn hl]
    have ih := batchedNat_flatten hn (l.drop n)
    simp [ih]
termination_by l.length
decreasing_by
  have hn0 : 0 < n := Nat.pos_of_ne_zero hn
  have hl0 : 0 < l.length := List.length_pos.mpr hl
  simpa [List.length_drop] using Nat.sub_lt hl0 hn0

theorem batchedNat_length {n : Nat} (hn : n ≠ 0) (l : List Str) :
    (batchedNat l n).length = (l.length + n - 1) / n := by
  by_cases hl : l = []
  · subst hl
    rw [batchedNat_nil]
    have hz : (List.length ([] : List Str) + n - 1) / n = 0 :=
      Nat.div_eq_of_lt (by simp; omega)
    simpa using hz.symm
  · rw [batchedNat_cons hn hl]
    have ih := batchedNat_length hn (l.drop n)
    have hl0 : 0 < l.length := List.length_pos.mpr hl
    rw [List.length_cons, ih, List.length_drop]
    have hr : l.length + n - 1 = (l.length - 1) + n := by omega
    rw [hr, Nat.add_div_right _ (Nat.pos_of_ne_zero hn)]
    by_cases hle : l.length ≤ n
    · have h1 : l.length - n = 0 := by omega
      rw [h1]
      simp only [Nat.zero_add]
      rw [Nat.div_eq_of_lt (by omega), Nat.div_eq_of_lt (by omega)]
    · have h2 : l.length - n + n - 1 = l.length - 1 := by omega
      rw [h2]
termination_by l.length
decreasing_by
  have hn0 : 0 < n := Nat.pos_of_ne_zero hn
  have hl0 : 0 < l.length := List.length_pos.mpr hl
  simpa [List.length_drop] using Nat.sub_lt hl0 hn0

theorem batchedNat_mem {n : Nat} (hn : n ≠ 0) (l : List Str) :
    ∀ b ∈ batchedNat l n, b ≠ [] ∧ b.length ≤ n := by
  by_cases hl : l = []
  · subst hl
    rw [batchedNat_nil]
    simp
  · rw [batchedNat_cons hn hl]
    intro b hb
    rcases List.mem_cons.mp hb with hb1 | hb2
    · subst hb1
      constructor
      · have hpos : 0 < (l.take n).length := by
          rw [List.length_take]
          have := List.length_pos.mpr hl
          omega
        exact List.length_pos.mp hpos
      · simpa using List.length_take_le n l
    · exact batchedNat_mem hn (l.drop n) b hb2
termination_by l.length
decreasing_by
  have hn0 : 0 < n := Nat.pos_of_ne_zero hn
  have hl0 : 0 < l.length := List.length_pos.mpr hl
  simpa [List.length_drop] using Nat.sub_lt hl0 hn0

theorem batchedNat_full {n : Nat} (hn : n ≠ 0) (l : List Str) :
    ∀ b ∈ (batchedNat l n).dropLast, b.length = n := by
  by_cases hl : l = []
  · subst hl
    rw [batchedNat_nil]
    simp
  · rw [batchedNat_cons hn hl]
    by_cases hd : l.drop n = []
    · rw [hd, batchedNat_nil]
      simp
    · have hrest : batchedNat (l.drop n) n ≠ [] := by
        rw [batchedNat_cons hn hd]
        simp
      intro b hb
      rw [List.dropLast_cons_of_ne_nil hrest] at hb
      rcases List.mem_cons.mp hb with hb1 | hb2
      · subst hb1
        have hlen : n < l.length := by
          by_contra hc
          exact hd (List.drop_eq_nil_of_le (by omega))
        simp [List.length_take, Nat.min_eq_left (le_of_lt hlen)]
      · exact batchedNat_full hn (l.drop n) b hb2
termination_by l.length
decreasing_by
  have hn0 : 0 < n := Nat.pos_of_ne_zero hn
  have hl0 : 0 < l.length := List.length_pos.mpr hl
  simpa [List.length_drop] using Nat.sub_lt hl0 hn0

theorem batchedNat_sub {n : Nat} {l b : List Str} (hb : b ∈ batchedNat l n)
    (hn : n ≠ 0) : ∀ x ∈ b, x ∈ l := by
  intro x hx
  have : x ∈ (batchedNat l n).flatten := List.mem_flatten.mpr ⟨b, hb, hx⟩
  rwa [batchedNat_flatten hn] at this

/-! Helper lemmas about decimal rendering: the padded index format is
    injective, so distinct batch indices write distinct output files. -/

theorem strToNatAcc_append (s t : Str) (acc : Nat) :
    strToNatAcc acc (s ++ t) = strToNatAcc (strToNatAcc acc s) t := by
  induction s generalizing acc with
  | nil => rfl
  | cons c cs ih =>
    show strToNatAcc (10 * acc + (c.toNat - '0'.toNat)) (cs ++ t)
        = strToNatAcc (strToNatAcc (10 * acc + (c.toNat - '0'.toNat)) cs) t
    exact ih _

theorem digitChar_toNat {d : Nat} (h : d < 10) :
    (Nat.digitChar d).toNat - '0'.toNat = d := by
  interval_cases d <;> decide

theorem natToStrAux_fuel :
    ∀ (fuel fuel' n : Nat), n ≤ fuel → n ≤ fuel' →
      natToStrAux fuel n = natToStrAux fuel' n := by
  intro fuel
  induction fuel with
  | zero =>
    intro fuel' n h _
    have hn : n = 0 := Nat.le_zero.mp h
    subst hn
    cases fuel' with
    | zero => rfl
    | succ f' =>
      show [Nat.digitChar 0] = if (0 : Nat) < 10 then [Nat.digitChar 0] else _
      rw [if_pos (by omega)]
  | succ f ih =>
    intro fuel' n h h'
    by_cases h10 : n < 10
    · cases fuel' with
      | zero =>
        have hn : n = 0 := Nat.le_zero.mp h'
        subst hn
        show (if (0 : Nat) < 10 then [Nat.digitChar 0] else _) = [Nat.digitChar 0]
        rw [if_pos (by omega)]
      | succ f' =>
        show (if n < 10 then [Nat.digitChar n] else _)
            = (if n < 10 then [Nat.digitChar n] else _)
        rw [if_pos h10, if_pos h10]
    · cases fuel' with
      | zero => omega
      | succ f' =>
        show (if n < 10 then [Nat.digitChar n]
            else natToStrAux f (n / 10) ++ [Nat.digitChar (n % 10)])
          = (if n < 10 then [Nat.digitChar n]
            else natToStrAux f' (n / 10) ++ [Nat.digitChar (n % 10)])
        rw [if_neg h10, if_neg h10]
        have hd : n / 10 ≤ f := by omega
        have hd' : n / 10 ≤ f' := by omega
        rw [ih f' (n / 10) hd hd']

theorem natToStr_unfold (n : Nat) :
    natToStr n = if n < 10 then [Nat.digitChar n]
      else natToStr (n / 10) ++ [Nat.digitChar (n % 10)] := by
  cases hn : n with
  | zero => rfl
  | succ m =>
    show (if m + 1 < 10 then [Nat.digitChar (m + 1)]
        else natToStrAux m ((m + 1) / 10) ++ [Nat.digitChar ((m + 1) % 10)]) = _
    by_cases h10 : m + 1 < 10
    · rw [if_pos h10, if_pos h10]
    · rw [if_neg h10, if_neg h10]
      unfold natToStr
      rw [natToStrAux_fuel m ((m + 1) / 10) ((m + 1) / 10) (by omega) (Nat.le_refl _)]

theorem strToNatAcc_natToStr (n acc : Nat) :
    strToNatAcc acc (natToStr n) = acc * 10 ^ (natToStr n).length + n := by
  by_cases h : n < 10
  · rw [natToStr_unfold, if_pos h]
    show 10 * acc + ((Nat.digitChar n).toNat - '0'.toNat)
        = acc * 10 ^ (List.length [Nat.digitChar n]) + n
    rw [digitChar_toNat h]
    show 10 * acc + n = acc * 10 ^ (1 : Nat) + n
    rw [pow_one]
    omega
  · rw [natToStr_unfold, if_neg h]
    rw [strToNatAcc_append]
    have ih := strToNatAcc_natToStr (n / 10) acc
    show 10 * (strToNatAcc acc (natToStr (n / 10)))
          + ((Nat.digitChar (n % 10)).toNat - '0'.toNat)
        = acc * 10 ^ (List.length (natToStr (n / 10) ++ [Nat.digitChar (n % 10)])) + n
    rw [ih, digitChar_toNat (Nat.mod_lt n (show 0 < 10 by omega)),
      List.length_append]
    simp only [List.length_cons, List.length_nil, Nat.zero_add]
    rw [pow_succ]
    have hn10 : 10 * (n / 10) + n % 10 = n := Nat.div_add_mod n 10
    calc 10 * (acc * 10 ^ (natToStr (n / 10)).length + n / 10) + n % 10
        = acc * (10 ^ (natToStr (n / 10)).length * 10) + (10 * (n / 10) + n % 10) := by
          ring
      _ = acc * (10 ^ (natToStr (n / 10)).length * 10) + n := by rw [hn10]
termination_by n
decreasing_by exact Nat.div_lt_self (by omega) (by omega)

theorem strToNatAcc_zeros (k : Nat) (s : Str) :
    strToNatAcc 0 (List.replicate k '0' ++ s) = strToNatAcc 0 s := by
  induction k with
  | zero => rfl
  | succ m ih =>
    rw [List.replicate_succ]
    show strToNatAcc (10 * 0 + ('0'.toNat - '0'.toNat)) (List.replicate m '0' ++ s)
        = strToNatAcc 0 s
    have h0 : 10 * 0 + ('0'.toNat - '0'.toNat) = 0 := rfl
    rw [h0]
    exact ih

theorem pad3_decode (n : Nat) : strToNatAcc 0 (pad3 n) = n := by
  unfold pad3
  rw [strToNatAcc_zeros]
  simpa using strToNatAcc_natToStr n 0

theorem pad3_inj {m n : Nat} (h : pad3 m = pad3 n) : m = n := by
  have := congrArg (strToNatAcc 0) h
  rwa [pad3_decode, pad3_decode] at this

theorem outputFileName_inj {output_dir state : Str} {i j : Nat}
    (h : outputFileName output_dir state i = outputFileName output_dir state j) : i = j := by
  unfold outputFileName at h
  have h1 := List.append_cancel_left h
  simp only [List.cons.injEq, true_and] at h1
  exact pad3_inj (List.append_cancel_left (List.append_cancel_right h1))

/-! Helper lemmas about hourly aggregation. -/

theorem floorHour_idem (t : Nat) : floorHour (floorHour t) = floorHour t := by
  unfold floorHour
  rw [Nat.mul_div_cancel_left _ (by norm_num : (0 : Nat) < 60)]

theorem rowKey_mk (k : GKey) (v : List Rat) :
    rowKey { building_id := (ofLex k).1, timestamp := (ofLex k).2, vals := v } = k := rfl

theorem aggKeys_nodup (df : List Row) : (aggKeys df).Nodup :=
  ((List.perm_insertionSort _ _).nodup_iff).mpr (List.nodup_dedup _)

theorem aggKeys_sorted (df : List Row) : List.Sorted (· ≤ ·) (aggKeys df) :=
  List.sorted_insertionSort _ _

theorem aggKeys_mem {df : List Row} {k : GKey} : k ∈ aggKeys df ↔ k ∈ df.map rowKey := by
  unfold aggKeys
  rw [List.mem_insertionSort, List.mem_dedup]

theorem sumVals_singleton (v : List Rat) : sumVals [v] = v := rfl

theorem filter_eq_singleton {l : List GKey} {a : GKey}
    (hnd : l.Nodup) (ha : a ∈ l) : l.filter (fun x => decide (x = a)) = [a] := by
  induction l with
  | nil => cases ha
  | cons b bs ih =>
    rcases List.mem_cons.mp ha with h1 | h2
    · subst h1
      rw [List.filter_cons_of_pos (by simp)]
      have hnb : a ∉ bs := (List.nodup_cons.mp hnd).1
      have hnil : bs.filter (fun x => decide (x = a)) = [] := by
        rw [List.filter_eq_nil_iff]
        intro x hx
        simp only [decide_eq_true_eq]
        intro hxa
        exact hnb (hxa ▸ hx)
      rw [hnil]
    · have hba : ¬(b = a) := by
        intro hba
        exact (List.nodup_cons.mp hnd).1 (hba ▸ h2)
      rw [List.filter_cons_of_neg (by simp [hba])]
      exact ih (List.nodup_cons.mp hnd).2 h2

theorem groupVals_map_mk {keys : List GKey} (hnd : keys.Nodup) {k : GKey}
    (hk : k ∈ keys) (f : GKey → List Rat) :
    groupVals (keys.map (fun j =>
      { building_id := (ofLex j).1, timestamp := (ofLex j).2, vals := f j })) k
      = [f k] := by
  unfold groupVals
  rw [List.filter_map]
  have hcong : List.filter ((fun r => decide (rowKey r = k)) ∘ (fun j =>
      ({ building_id := (ofLex j).1, timestamp := (ofLex j).2, vals := f j } : Row))) keys
      = List.filter (fun x => decide (x = k)) keys :=
    List.filter_congr (fun x _ => by simp [Function.comp, rowKey_mk])
  rw [hcong, filter_eq_singleton hnd hk]
  rfl

theorem mem_aggKeys_floor {df : List Row} {k : GKey} (hk : k ∈ aggKeys (floorRows df)) :
    ∃ r ∈ df, (ofLex k).1 = r.building_id ∧ (ofLex k).2 = floorHour r.timestamp := by
  rw [aggKeys_mem] at hk
  obtain ⟨r', hr', hkey⟩ := List.mem_map.mp hk
  obtain ⟨r, hr, hfl⟩ := List.mem_map.mp hr'
  refine ⟨r, hr, ?_, ?_⟩
  · rw [← hkey, ← hfl]
    rfl
  · rw [← hkey, ← hfl]
    rfl

theorem floorRows_map_mk (keys : List GKey) (f : GKey → List Rat)
    (hts : ∀ k ∈ keys, floorHour (ofLex k).2 = (ofLex k).2) :
    floorRows (keys.map (fun j =>
        { building_id := (ofLex j).1, timestamp := (ofLex j).2, vals := f j }))
      = keys.map (fun j =>
        { building_id := (ofLex j).1, timestamp := (ofLex j).2, vals := f j }) := by
  unfold floorRows
  rw [List.map_map]
  apply List.map_congr_left
  intro k hk
  show ({ building_id := (ofLex k).1, timestamp := floorHour (ofLex k).2,
          vals := f k } : Row) = _
  rw [hts k hk]

theorem floorRows_aggregate (df : List Row) :
    floorRows (hourly_aggregate df) = hourly_aggregate df := by
  conv_lhs => rw [hourly_aggregate]
  conv_rhs => rw [hourly_aggregate]
  apply floorRows_map_mk
  intro k hk
  obtain ⟨r, _, _, hts⟩ := mem_aggKeys_floor hk
  rw [hts, floorHour_idem]

theorem map_rowKey_aggregate (df : List Row) :
    (hourly_aggregate df).map rowKey = aggKeys (floorRows df) := by
  unfold hourly_aggregate
  rw [List.map_map]
  conv_rhs => rw [← List.map_id (aggKeys (floorRows df))]
  apply List.map_congr_left
  intro k _
  simp [Function.comp, rowKey_mk]

theorem aggKeys_aggregate (df : List Row) :
    aggKeys (hourly_aggregate df) = aggKeys (floorRows df) := by
  unfold aggKeys
  rw [map_rowKey_aggregate]
  rw [List.dedup_eq_self.mpr (aggKeys_nodup (floorRows df))]
  exact List.Sorted.insertionSort_eq (aggKeys_sorted (floorRows df))

theorem hourly_aggregate_idem (df : List Row) :
    hourly_aggregate (hourly_aggregate df) = hourly_aggregate df := by
  conv_lhs => rw [hourly_aggregate]
  rw [floorRows_aggregate, aggKeys_aggregate]
  conv_rhs => rw [hourly_aggregate]
  apply List.map_congr_left
  intro k hk
  have hgrp : groupVals (hourly_aggregate df) k
      = [sumVals (groupVals (floorRows df) k)] := by
    conv_lhs => rw [hourly_aggregate]
    exact groupVals_map_mk (aggKeys_nodup (floorRows df)) hk _
  rw [hgrp, sumVals_singleton]

theorem hourly_aggregate_ne_nil {df : List Row} (h : df ≠ []) :
    hourly_aggregate df ≠ [] := by
  intro hc
  apply h
  unfold hourly_aggregate at hc
  rw [List.map_eq_nil_iff] at hc
  unfold aggKeys at hc
  have hperm := List.perm_insertionSort (α := GKey) (· ≤ ·) ((floorRows df).map rowKey).dedup
  rw [hc] at hperm
  have hdednil : ((floorRows df).map rowKey).dedup = [] := hperm.symm.eq_nil
  have hmapnil : (floorRows df).map rowKey = [] := by
    by_contra hne
    obtain ⟨x, hx⟩ := List.exists_mem_of_ne_nil _ hne
    have : x ∈ ((floorRows df).map rowKey).dedup := List.mem_dedup.mpr hx
    rw [hdednil] at this
    cases this
  rw [List.map_eq_nil_iff] at hmapnil
  unfold floorRows at hmapnil
  rwa [List.map_eq_nil_iff] at hmapnil

theorem mem_hourly_aggregate_building {df : List Row} {r : Row}
    (hr : r ∈ hourly_aggregate df) : ∃ r0 ∈ df, r.building_id = r0.building_id := by
  unfold hourly_aggregate at hr
  obtain ⟨k, hk, hmk⟩ := List.mem_map.mp hr
  obtain ⟨r0, hr0, h1, _⟩ := mem_aggKeys_floor hk
  exact ⟨r0, hr0, by rw [← hmk]; exact h1⟩

/-! Helper lemmas about the fetch-and-aggregate worker. -/

theorem mapM_ok_of_all {f : Str → Except PyErr (List Row)} {l : List Str}
    (h : ∀ p ∈ l, ∃ v, f p = .ok v ∧ v ≠ []) :
    ∃ vs, l.mapM f = .ok vs ∧ vs.length = l.length ∧ ∀ v ∈ vs, v ≠ [] := by
  induction l with
  | nil => exact ⟨[], rfl, rfl, by simp⟩
  | cons p ps ih =>
    obtain ⟨v, hv, hvne⟩ := h p (by simp)
    obtain ⟨vs, hvs, hlen, hall⟩ := ih (fun q hq => h q (by simp [hq]))
    refine ⟨v :: vs, ?_, by simp [hlen], ?_⟩
    · rw [List.mapM_cons, hv, hvs]
      rfl
    · intro w hw
      rcases List.mem_cons.mp hw with h1 | h2
      · exact h1 ▸ hvne
      · exact hall w h2

theorem mapM_mem_ok {f : Str → Except PyErr (List Row)} {l : List Str}
    {vs : List (List Row)} (h : l.mapM f = .ok vs) :
    ∀ v ∈ vs, ∃ p ∈ l, f p = .ok v := by
  induction l generalizing vs with
  | nil =>
    rw [List.mapM_nil] at h
    have hvs : vs = [] := by
      cases h
      rfl
    subst hvs
    simp
  | cons p ps ih =>
    rw [List.mapM_cons] at h
    cases hfp : f p with
    | error e =>
      rw [hfp] at h
      simp only [Bind.bind, Except.bind] at h
      cases h
    | ok v =>
      rw [hfp] at h
      cases hps : ps.mapM f with
      | error e =>
        rw [hps] at h
        simp only [Bind.bind, Except.bind] at h
        cases h
      | ok ws =>
        rw [hps] at h
        simp only [Bind.bind, Except.bind, Pure.pure, Except.pure] at h
        have hvs : vs = v :: ws := by
          cases h
          rfl
        subst hvs
        intro w hw
        rcases List.mem_cons.mp hw with h1 | h2
        · exact ⟨p, by simp, h1 ▸ hfp⟩
        · obtain ⟨q, hq, hfq⟩ := ih hps w h2
          exact ⟨q, by simp [hq], hfq⟩

theorem read_batch_ok_nonempty {store : Store} {batch : List Str} (hb : batch ≠ [])
    (h : ∀ p ∈ batch, ∃ rs, store p = .ok rs ∧ rs ≠ []) :
    ∃ df, read_batch store batch = .ok df ∧ df ≠ [] := by
  have hlp : ∀ p ∈ batch, ∃ v, load_and_process store p = .ok v ∧ v ≠ [] := by
    intro p hp
    obtain ⟨rs, hrs, hne⟩ := h p hp
    refine ⟨hourly_aggregate (tagRows (extract_building_id p) rs), ?_, ?_⟩
    · unfold load_and_process
      rw [hrs]
      rfl
    · apply hourly_aggregate_ne_nil
      unfold tagRows
      simpa using hne
  obtain ⟨vs, hvs, hlen, hall⟩ := mapM_ok_of_all hlp
  refine ⟨vs.flatten, ?_, ?_⟩
  · unfold read_batch
    rw [hvs]
    rfl
  · intro hc
    rw [List.flatten_eq_nil_iff] at hc
    have hvsne : vs ≠ [] := by
      intro h0
      rw [h0] at hlen
      exact hb (List.length_eq_zero.mp hlen.symm)
    obtain ⟨v, hv⟩ := List.exists_mem_of_ne_nil vs hvsne
    exact hall v hv (hc v hv)

theorem process_batch_ok_some {store : Store} {batch : List Str} {state ofile : Str}
    (hb : batch ≠ []) (h : ∀ p ∈ batch, ∃ rs, store p = .ok rs ∧ rs ≠ []) :
    ∃ en df, process_batch store batch state ofile = .ok (some (en, df)) := by
  obtain ⟨df, hdf, hne⟩ := read_batch_ok_nonempty hb h
  refine ⟨{ path := ofile, building_ids := batch.map extract_building_id,
            state := state }, df, ?_⟩
  unfold process_batch
  rw [hdf]
  simp only [Bind.bind, Except.bind, hne, if_neg hne]
  rfl

theorem process_batch_none {store : Store} {batch : List Str} {state ofile : Str}
    (h : read_batch store batch = .ok []) :
    process_batch store batch state ofile = .ok none := by
  unfold process_batch
  rw [h]
  rfl

theorem read_batch_rows {store : Store} {batch : List Str} {df : List Row}
    (h : read_batch store batch = .ok df) :
    ∀ r ∈ df, ∃ p ∈ batch, r.building_id = extract_building_id p := by
  unfold read_batch at h
  cases hm : batch.mapM (load_and_process store) with
  | error e =>
    rw [hm] at h
    simp only [Bind.bind, Except.bind] at h
    cases h
  | ok vs =>
    rw [hm] at h
    simp only [Bind.bind, Except.bind, Pure.pure, Except.pure] at h
    have hdf : df = vs.flatten := by
      cases h
      rfl
    subst hdf
    intro r hr
    obtain ⟨v, hv, hrv⟩ := List.mem_flatten.mp hr
    obtain ⟨p, hp, hfp⟩ := mapM_mem_ok hm v hv
    unfold load_and_process at hfp
    cases hsp : store p with
    | error e =>
      rw [hsp] at hfp
      simp only [Bind.bind, Except.bind] at hfp
      cases hfp
    | ok rs =>
      rw [hsp] at hfp
      simp only [Bind.bind, Except.bind, Pure.pure, Except.pure] at hfp
      have hv2 : v = hourly_aggregate (tagRows (extract_building_id p) rs) := by
        cases hfp
        rfl
      subst hv2
      obtain ⟨r0, hr0, hbid⟩ := mem_hourly_aggregate_building hrv
      unfold tagRows at hr0
      obtain ⟨rr, _, hrr⟩ := List.mem_map.mp hr0
      refine ⟨p, hp, ?_⟩
      rw [hbid, ← hrr]

theorem process_batch_inv {store : Store} {batch : List Str} {state ofile : Str}
    {en : Entry} {df : List Row}
    (h : process_batch store batch state ofile = .ok (some (en, df))) :
    read_batch store batch = .ok df
      ∧ en.building_ids = batch.map extract_building_id := by
  unfold process_batch at h
  cases hrb : read_batch store batch with
  | error e =>
    rw [hrb] at h
    simp only [Bind.bind, Except.bind] at h
    cases h
  | ok d =>
    rw [hrb] at h
    simp only [Bind.bind, Except.bind] at h
    by_cases hd : d = []
    · rw [if_pos hd] at h
      cases h
    · rw [if_neg hd] at h
      simp only [Pure.pure, Except.pure] at h
      have hp := Option.some.inj (Except.ok.inj h)
      have hen := congrArg Prod.fst hp
      have hdf := congrArg Prod.snd hp
      simp only at hen hdf
      constructor
      · exact hdf ▸ rfl
      · rw [← hen]

/-! Helper lemmas about manifests and the file model. -/

theorem hasKey_append_right (m : Manifest) (i : Nat) (e : Entry) :
    hasKey (m ++ [(i, e)]) i = true := by
  unfold hasKey
  rw [List.any_append]
  simp

theorem hasKey_append_ne {i j : Nat} (m : Manifest) (e : Entry) (hij : j ≠ i) :
    hasKey (m ++ [(i, e)]) j = hasKey m j := by
  unfold hasKey
  rw [List.any_append]
  have h1 : ((i, e) :: []).any (fun kv => decide (kv.1 = j)) = false := by
    simp only [List.any_cons, List.any_nil, Bool.or_false, decide_eq_false_iff_not]
    exact fun hc => hij hc.symm
  rw [h1, Bool.or_false]

theorem lookupKey_append_left {m1 : Manifest} (m2 : Manifest) {i : Nat}
    (h : hasKey m1 i = true) : lookupKey (m1 ++ m2) i = lookupKey m1 i := by
  induction m1 with
  | nil => simp [hasKey] at h
  | cons kv m ih =>
    by_cases hkv : kv.1 = i
    · show lookupKey (kv :: (m ++ m2)) i = lookupKey (kv :: m) i
      unfold lookupKey
      rw [if_pos hkv, if_pos hkv]
    · have h2 : hasKey m i = true := by
        unfold hasKey at h ⊢
        rw [List.any_cons] at h
        rcases Bool.or_eq_true_iff.mp h with h3 | h3
        · exact absurd (of_decide_eq_true h3) hkv
        · exact h3
      show lookupKey (kv :: (m ++ m2)) i = lookupKey (kv :: m) i
      unfold lookupKey
      rw [if_neg hkv, if_neg hkv]
      exact ih h2

theorem lookupKey_append_new {m : Manifest} {i : Nat} (e : Entry)
    (h : hasKey m i = false) : lookupKey (m ++ [(i, e)]) i = some e := by
  induction m with
  | nil => simp [lookupKey]
  | cons kv m ih =>
    unfold hasKey at h
    rw [List.any_cons] at h
    have hor := Bool.or_eq_false_iff.mp h
    have h1 : ¬(kv.1 = i) := by
      have h3 := hor.1
      simpa using h3
    show lookupKey (kv :: (m ++ [(i, e)])) i = some e
    unfold lookupKey
    rw [if_neg h1]
    exact ih hor.2

theorem lookupFile_set_eq (fsys : FileSys) (p : Str) (rows : List Row) :
    lookupFile (setFile fsys p rows) p = some rows := by
  show (if p = p then some rows else lookupFile fsys p) = some rows
  rw [if_pos rfl]

theorem lookupFile_set_ne {p q : Str} (fsys : FileSys) (rows : List Row)
    (h : p ≠ q) : lookupFile (setFile fsys p rows) q = lookupFile fsys q := by
  show (if p = q then some rows else lookupFile fsys q) = lookupFile fsys q
  rw [if_neg h]

/-! Helper lemmas about one completion step. -/

theorem stepState_hasKey_mono {store : Store} {s o : Str} {i : Nat}
    {batch : List Str} {st : SysState} {j : Nat}
    (h : hasKey st.manifest j = true) :
    hasKey (stepState store s o i batch st).manifest j = true
      ∧ lookupKey (stepState store s o i batch st).manifest j
        = lookupKey st.manifest j := by
  unfold stepState
  cases process_batch store batch s (outputFileName o s i) with
  | error e => exact ⟨h, rfl⟩
  | ok v =>
    cases v with
    | none => exact ⟨h, rfl⟩
    | some pr =>
      refine ⟨?_, ?_⟩
      · show hasKey (st.manifest ++ [(i, pr.1)]) j = true
        unfold hasKey
        rw [List.any_append]
        unfold hasKey at h
        simp [h]
      · exact lookupKey_append_left _ h

theorem stepState_hasKey_ne {store : Store} {s o : Str} {i : Nat}
    {batch : List Str} {st : SysState} {j : Nat} (hij : j ≠ i) :
    hasKey (stepState store s o i batch st).manifest j = hasKey st.manifest j := by
  unfold stepState
  cases process_batch store batch s (outputFileName o s i) with
  | error e => rfl
  | ok v =>
    cases v with
    | none => rfl
    | some pr => exact hasKey_append_ne st.manifest pr.1 hij

theorem stepState_file_ne {store : Store} {s o : Str} {i : Nat}
    {batch : List Str} {st : SysState} {f : Str}
    (hf : outputFileName o s i ≠ f) :
    lookupFile (stepState store s o i batch st).files f = lookupFile st.files f := by
  unfold stepState
  cases process_batch store batch s (outputFileName o s i) with
  | error e => rfl
  | ok v =>
    cases v with
    | none => rfl
    | some pr => exact lookupFile_set_ne st.files pr.2 hf

theorem stepState_of_not_ok {store : Store} {s o : Str} {i : Nat}
    {batch : List Str} {st : SysState}
    (h : ∀ en df, process_batch store batch s (outputFileName o s i)
      ≠ .ok (some (en, df))) :
    stepState store s o i batch st = st := by
  unfold stepState
  cases hpb : process_batch store batch s (outputFileName o s i) with
  | error e => rfl
  | ok v =>
    cases v with
    | none => rfl
    | some pr => exact absurd hpb (h pr.1 pr.2)

theorem stepState_of_ok {store : Store} {s o : Str} {i : Nat}
    {batch : List Str} {st : SysState} {en : Entry} {df : List Row}
    (h : process_batch store batch s (outputFileName o s i) = .ok (some (en, df))) :
    stepState store s o i batch st =
      { manifest := st.manifest ++ [(i, en)],
        files := setFile st.files (outputFileName o s i) df } := by
  unfold stepState
  rw [h]

/-! Helper lemmas about the batch loop. -/

theorem runBatches_nil (store : Store) (s o : Str) (st : SysState) :
    runBatches store s o [] st = (st, []) := rfl

theorem runBatches_cons_skip {store : Store} {s o : Str} {i : Nat}
    {batch : List Str} {rest : List (Nat × List Str)} {st : SysState}
    (h : hasKey st.manifest i = true) :
    runBatches store s o ((i, batch) :: rest) st = runBatches store s o rest st := by
  simp only [runBatches]
  rw [if_pos h]

theorem runBatches_cons_proc {store : Store} {s o : Str} {i : Nat}
    {batch : List Str} {rest : List (Nat × List Str)} {st : SysState}
    (h : hasKey st.manifest i = false) :
    runBatches store s o ((i, batch) :: rest) st =
      ((runBatches store s o rest (stepState store s o i batch st)).1,
       i :: (runBatches store s o rest (stepState store s o i batch st)).2) := by
  simp only [runBatches]
  rw [if_neg (by simp [h])]

theorem runBatches_mono {store : Store} {s o : Str} {j : Nat} :
    ∀ (l : List (Nat × List Str)) (st : SysState),
      hasKey st.manifest j = true →
      hasKey (runBatches store s o l st).1.manifest j = true ∧
        lookupKey (runBatches store s o l st).1.manifest j
          = lookupKey st.manifest j := by
  intro l
  induction l with
  | nil => exact fun st h => ⟨h, rfl⟩
  | cons ib rest ih =>
    obtain ⟨i, batch⟩ := ib
    intro st h
    cases hk : hasKey st.manifest i with
    | true =>
      rw [runBatches_cons_skip hk]
      exact ih st h
    | false =>
      rw [runBatches_cons_proc hk]
      obtain ⟨h1, h2⟩ :=
        @stepState_hasKey_mono store s o i batch st j h
      obtain ⟨h3, h4⟩ := ih (stepState store s o i batch st) h1
      exact ⟨h3, by rw [h4, h2]⟩

theorem runBatches_skipAll {store : Store} {s o : Str} :
    ∀ (l : List (Nat × List Str)) (st : SysState),
      (∀ ib ∈ l, hasKey st.manifest ib.1 = true) →
      runBatches store s o l st = (st, []) := by
  intro l
  induction l with
  | nil => exact fun st _ => rfl
  | cons ib rest ih =>
    obtain ⟨i, batch⟩ := ib
    intro st h
    rw [runBatches_cons_skip (h (i, batch) (by simp))]
    exact ih st (fun jb hjb => h jb (by simp [hjb]))

theorem runBatches_processed {store : Store} {s o : Str} :
    ∀ (l : List (Nat × List Str)) (st : SysState),
      (l.map Prod.fst).Nodup →
      (runBatches store s o l st).2
        = (l.filter (fun ib => !hasKey st.manifest ib.1)).map Prod.fst := by
  intro l
  induction l with
  | nil => exact fun st _ => rfl
  | cons ib rest ih =>
    obtain ⟨i, batch⟩ := ib
    intro st hnd
    have hndc : (i :: rest.map Prod.fst).Nodup := by
      rw [List.map_cons] at hnd
      exact hnd
    have hnd2 := List.nodup_cons.mp hndc
    cases hk : hasKey st.manifest i with
    | true =>
      rw [runBatches_cons_skip hk, List.filter_cons_of_neg (by simp [hk])]
      exact ih st hnd2.2
    | false =>
      rw [runBatches_cons_proc hk, List.filter_cons_of_pos (by simp [hk]),
        List.map_cons]
      show i :: (runBatches store s o rest (stepState store s o i batch st)).2
          = i :: (rest.filter (fun ib => !hasKey st.manifest ib.1)).map Prod.fst
      rw [ih (stepState store s o i batch st) hnd2.2]
      congr 1
      apply congrArg
      apply List.filter_congr
      intro jb hjb
      have hji : jb.1 ≠ i := by
        intro hc
        exact hnd2.1 (hc ▸ List.mem_map_of_mem Prod.fst hjb)
      rw [stepState_hasKey_ne hji]

theorem runBatches_untouched {store : Store} {s o : Str} {i : Nat} :
    ∀ (l : List (Nat × List Str)) (st : SysState),
      hasKey st.manifest i = true →
      lookupFile (runBatches store s o l st).1.files (outputFileName o s i)
        = lookupFile st.files (outputFileName o s i) := by
  intro l
  induction l with
  | nil => exact fun st _ => rfl
  | cons ib rest ih =>
    obtain ⟨j, batch⟩ := ib
    intro st h
    cases hk : hasKey st.manifest j with
    | true =>
      rw [runBatches_cons_skip hk]
      exact ih st h
    | false =>
      rw [runBatches_cons_proc hk]
      show lookupFile
          (runBatches store s o rest (stepState store s o j batch st)).1.files
          (outputFileName o s i) = _
      have hji : j ≠ i := by
        intro hc
        rw [hc, h] at hk
        cases hk
      have hfile : outputFileName o s j ≠ outputFileName o s i :=
        fun hc => hji (outputFileName_inj hc)
      rw [ih (stepState store s o j batch st)
        (@stepState_hasKey_mono store s o j batch st i h).1]
      exact stepState_file_ne hfile

theorem runBatches_notMem {store : Store} {s o : Str} {i : Nat} :
    ∀ (l : List (Nat × List Str)) (st : SysState),
      i ∉ l.map Prod.fst →
      hasKey (runBatches store s o l st).1.manifest i = hasKey st.manifest i ∧
        lookupFile (runBatches store s o l st).1.files (outputFileName o s i)
          = lookupFile st.files (outputFileName o s i) := by
  intro l
  induction l with
  | nil => exact fun st _ => ⟨rfl, rfl⟩
  | cons ib rest ih =>
    obtain ⟨j, batch⟩ := ib
    intro st h
    have hij : i ≠ j := fun hc => h (by simp [hc])
    have hrest : i ∉ rest.map Prod.fst := fun hc => h (by simp [hc])
    cases hk : hasKey st.manifest j with
    | true =>
      rw [runBatches_cons_skip hk]
      exact ih st hrest
    | false =>
      rw [runBatches_cons_proc hk]
      obtain ⟨h1, h2⟩ := ih (stepState store s o j batch st) hrest
      constructor
      · show hasKey
            (runBatches store s o rest (stepState store s o j batch st)).1.manifest i
            = hasKey st.manifest i
        rw [h1, stepState_hasKey_ne hij]
      · show lookupFile
            (runBatches store s o rest (stepState store s o j batch st)).1.files
            (outputFileName o s i) = _
        have hfile : outputFileName o s j ≠ outputFileName o s i :=
          fun hc => hij (outputFileName_inj hc).symm
        rw [h2]
        exact stepState_file_ne hfile

theorem runBatches_allDone {store : Store} {s o : Str} :
    ∀ (l : List (Nat × List Str)) (st : SysState),
      (∀ ib ∈ l, hasKey st.manifest ib.1 = false →
        ∃ en df, process_batch store ib.2 s (outputFileName o s ib.1)
          = .ok (some (en, df))) →
      ∀ ib ∈ l, hasKey (runBatches store s o l st).1.manifest ib.1 = true := by
  intro l
  induction l with
  | nil => simp
  | cons jb rest ih =>
    obtain ⟨j, batch⟩ := jb
    intro st h ib hib
    cases hk : hasKey st.manifest j with
    | true =>
      rw [runBatches_cons_skip hk]
      rcases List.mem_cons.mp hib with h1 | h2
      · subst h1
        exact (runBatches_mono rest st hk).1
      · exact ih st (fun jb2 hjb2 => h jb2 (by simp [hjb2])) ib h2
    | false =>
      rw [runBatches_cons_proc hk]
      obtain ⟨en, df, hok⟩ := h (j, batch) (by simp) hk
      have hkj : hasKey (stepState store s o j batch st).manifest j = true := by
        rw [stepState_of_ok hok]
        exact hasKey_append_right st.manifest j en
      have hrest : ∀ ib2 ∈ rest,
          hasKey (stepState store s o j batch st).manifest ib2.1 = false →
          ∃ en2 df2, process_batch store ib2.2 s (outputFileName o s ib2.1)
            = .ok (some (en2, df2)) := by
        intro ib2 hib2 hk2
        apply h ib2 (by simp [hib2])
        cases hx : hasKey st.manifest ib2.1 with
        | false => rfl
        | true =>
          have := (@stepState_hasKey_mono store s o j batch st ib2.1 hx).1
          rw [hk2] at this
          cases this
      rcases List.mem_cons.mp hib with h1 | h2
      · subst h1
        exact (runBatches_mono rest (stepState store s o j batch st) hkj).1
      · exact ih (stepState store s o j batch st) hrest ib h2

theorem runBatches_entry {store : Store} {s o : Str} {i : Nat} {batch : List Str}
    {en : Entry} {df : List Row}
    (hok : process_batch store batch s (outputFileName o s i) = .ok (some (en, df))) :
    ∀ (l : List (Nat × List Str)) (st : SysState),
      (l.map Prod.fst).Nodup → (i, batch) ∈ l → hasKey st.manifest i = false →
      lookupKey (runBatches store s o l st).1.manifest i = some en ∧
        lookupFile (runBatches store s o l st).1.files (outputFileName o s i)
          = some df := by
  intro l
  induction l with
  | nil =>
    intro st _ hmem
    cases hmem
  | cons jb rest ih =>
    obtain ⟨j, batch'⟩ := jb
    intro st hnd hmem hk
    have hndc : (j :: rest.map Prod.fst).Nodup := by
      rw [List.map_cons] at hnd
      exact hnd
    have hnd2 := List.nodup_cons.mp hndc
    rcases List.mem_cons.mp hmem with h1 | h2
    · injection h1 with hj hb
      subst hj
      subst hb
      rw [runBatches_cons_proc hk]
      have hstep := @stepState_of_ok store s o i batch st en df hok
      have hnotin : i ∉ rest.map Prod.fst := hnd2.1
      have hkey1 : hasKey (stepState store s o i batch st).manifest i = true := by
        rw [hstep]
        exact hasKey_append_right st.manifest i en
      obtain ⟨hm1, hm2⟩ :=
        runBatches_mono rest (stepState store s o i batch st) hkey1
      obtain ⟨hn1, hn2⟩ := runBatches_notMem rest (stepState store s o i batch st) hnotin
      constructor
      · show lookupKey
            (runBatches store s o rest (stepState store s o i batch st)).1.manifest i
            = some en
        rw [hm2, hstep]
        exact lookupKey_append_new en hk
      · show lookupFile
            (runBatches store s o rest (stepState store s o i batch st)).1.files
            (outputFileName o s i) = some df
        rw [hn2, hstep]
        exact lookupFile_set_eq st.files (outputFileName o s i) df
    · have hji : j ≠ i := by
        intro hc
        exact hnd2.1 (hc ▸ List.mem_map_of_mem Prod.fst h2)
      cases hkj : hasKey st.manifest j with
      | true =>
        rw [runBatches_cons_skip hkj]
        exact ih st hnd2.2 h2 hk
      | false =>
        rw [runBatches_cons_proc hkj]
        have hki : hasKey (stepState store s o j batch' st).manifest i = false := by
          rw [stepState_hasKey_ne (Ne.symm hji)]
          exact hk
        exact ih (stepState store s o j batch' st) hnd2.2 h2 hki

theorem runBatches_notDone {store : Store} {s o : Str} {i : Nat} {batch : List Str}
    (hbad : ∀ en df, process_batch store batch s (outputFileName o s i)
      ≠ .ok (some (en, df))) :
    ∀ (l : List (Nat × List Str)) (st : SysState),
      (l.map Prod.fst).Nodup → (i, batch) ∈ l → hasKey st.manifest i = false →
      hasKey (runBatches store s o l st).1.manifest i = false ∧
        lookupFile (runBatches store s o l st).1.files (outputFileName o s i)
          = lookupFile st.files (outputFileName o s i) := by
  intro l
  induction l with
  | nil =>
    intro st _ hmem
    cases hmem
  | cons jb rest ih =>
    obtain ⟨j, batch'⟩ := jb
    intro st hnd hmem hk
    have hndc : (j :: rest.map Prod.fst).Nodup := by
      rw [List.map_cons] at hnd
      exact hnd
    have hnd2 := List.nodup_cons.mp hndc
    rcases List.mem_cons.mp hmem with h1 | h2
    · injection h1 with hj hb
      subst hj
      subst hb
      rw [runBatches_cons_proc hk]
      have hstep : stepState store s o i batch st = st := stepState_of_not_ok hbad
      rw [hstep]
      obtain ⟨hn1, hn2⟩ := runBatches_notMem rest st hnd2.1
      constructor
      · show hasKey (runBatches store s o rest st).1.manifest i = false
        rw [hn1]
        exact hk
      · show lookupFile (runBatches store s o rest st).1.files (outputFileName o s i)
            = lookupFile st.files (outputFileName o s i)
        exact hn2
    · have hji : j ≠ i := by
        intro hc
        exact hnd2.1 (hc ▸ List.mem_map_of_mem Prod.fst h2)
      cases hkj : hasKey st.manifest j with
      | true =>
        rw [runBatches_cons_skip hkj]
        exact ih st hnd2.2 h2 hk
      | false =>
        rw [runBatches_cons_proc hkj]
        have hki : hasKey (stepState store s o j batch' st).manifest i = false := by
          rw [stepState_hasKey_ne (Ne.symm hji)]
          exact hk
        obtain ⟨hr1, hr2⟩ := ih (stepState store s o j batch' st) hnd2.2 h2 hki
        refine ⟨hr1, ?_⟩
        rw [hr2]
        have hfile : outputFileName o s j ≠ outputFileName o s i :=
          fun hc => hji (outputFileName_inj hc)
        exact stepState_file_ne hfile

theorem runBatches_filesP {store : Store} {s o : Str} (P : Row → Prop) :
    ∀ (l : List (Nat × List Str)) (st : SysState),
      (∀ ib ∈ l, ∀ en df,
        process_batch store ib.2 s (outputFileName o s ib.1) = .ok (some (en, df)) →
        ∀ r ∈ df, P r) →
      (∀ f rows, lookupFile st.files f = some rows → ∀ r ∈ rows, P r) →
      ∀ f rows, lookupFile (runBatches store s o l st).1.files f = some rows →
        ∀ r ∈ rows, P r := by
  intro l
  induction l with
  | nil => exact fun st _ hst => hst
  | cons jb rest ih =>
    obtain ⟨j, batch⟩ := jb
    intro st hgood hst
    cases hk : hasKey st.manifest j with
    | true =>
      rw [runBatches_cons_skip hk]
      exact ih st (fun ib hib => hgood ib (by simp [hib])) hst
    | false =>
      rw [runBatches_cons_proc hk]
      show ∀ f rows,
        lookupFile
          (runBatches store s o rest (stepState store s o j batch st)).1.files f
          = some rows → ∀ r ∈ rows, P r
      apply ih (stepState store s o j batch st)
        (fun ib hib => hgood ib (by simp [hib]))
      intro f rows hlk r hr
      cases hpb : process_batch store batch s (outputFileName o s j) with
      | error e =>
        rw [stepState_of_not_ok (fun en df hc => by rw [hpb] at hc; cases hc)] at hlk
        exact hst f rows hlk r hr
      | ok v =>
        cases v with
        | none =>
          rw [stepState_of_not_ok (fun en df hc => by rw [hpb] at hc; cases hc)] at hlk
          exact hst f rows hlk r hr
        | some pr =>
          obtain ⟨en, df⟩ := pr
          rw [stepState_of_ok hpb] at hlk
          by_cases hf : outputFileName o s j = f
          · subst hf
            rw [lookupFile_set_eq] at hlk
            have hrows : df = rows := Option.some.inj hlk
            refine hgood (j, batch) (by simp) en df hpb r ?_
            rw [hrows]
            exact hr
          · rw [lookupFile_set_ne st.files df hf] at hlk
            exact hst f rows hlk r hr

/-! Helper lemmas about enumeration and the filter. -/

theorem enum_fst_nodup (l : List (List Str)) : (l.enum.map Prod.fst).Nodup := by
  rw [List.enum_map_fst]
  exact List.nodup_range _

theorem mem_enum_snd {l : List (List Str)} {i : Nat} {b : List Str}
    (h : (i, b) ∈ l.enum) : b ∈ l := by
  obtain ⟨hlt, hb⟩ := List.mem_enum h
  rw [hb]
  exact List.getElem_mem hlt

theorem filter_allowed_mem {paths allowed : List Str} {p : Str}
    (h : p ∈ filter_allowed paths allowed) : stemSplitId p ∈ allowed ∧ p ∈ paths := by
  unfold filter_allowed at h
  have h2 := List.mem_filter.mp h
  exact ⟨of_decide_eq_true h2.2, h2.1⟩

/-! Helper lemmas about manifest serialization and loading. -/

theorem serializedItems_perm (m : Manifest) : (serializedItems m).Perm m :=
  List.perm_insertionSort _ m

theorem serializedItems_sorted (m : Manifest) :
    List.Sorted (· ≤ ·) ((serializedItems m).map Prod.fst) := by
  haveI hto : IsTotal (Nat × Entry) (fun a b => a.1 ≤ b.1) :=
    ⟨fun a b => Nat.le_total a.1 b.1⟩
  haveI htr : IsTrans (Nat × Entry) (fun a b => a.1 ≤ b.1) :=
    ⟨fun _ _ _ => Nat.le_trans⟩
  have hs : List.Sorted (fun a b : Nat × Entry => a.1 ≤ b.1) (serializedItems m) :=
    List.sorted_insertionSort _ m
  exact List.Pairwise.map Prod.fst (fun a b h => h) hs

theorem applyOps_save (m : Manifest) (mpath : Str) (t : TextFS) :
    applyOps t (save_manifest m mpath)
      = applyOp (applyOp t (.truncate mpath))
          (.writeAll mpath (serialize_manifest m)) := rfl

theorem save_manifest_apply (m : Manifest) (mpath : Str) (t : TextFS) :
    applyOps t (save_manifest m mpath) mpath = some (serialize_manifest m)
      ∧ ∀ q, q ≠ mpath → applyOps t (save_manifest m mpath) q = t q := by
  constructor
  · rw [applyOps_save]
    show (if mpath = mpath then
        some ((applyOp t (.truncate mpath) mpath).getD [] ++ serialize_manifest m)
      else applyOp t (.truncate mpath) mpath) = some (serialize_manifest m)
    rw [if_pos rfl]
    show some ((if mpath = mpath then some ([] : Str)
        else t mpath).getD [] ++ serialize_manifest m) = some (serialize_manifest m)
    rw [if_pos rfl]
    rfl
  · intro q hq
    rw [applyOps_save]
    show (if q = mpath then
        some ((applyOp t (.truncate mpath) mpath).getD [] ++ serialize_manifest m)
      else applyOp t (.truncate mpath) q) = t q
    rw [if_neg hq]
    show (if q = mpath then some ([] : Str) else t q) = t q
    rw [if_neg hq]

theorem save_manifest_crash (m : Manifest) (mpath : Str) (t : TextFS) :
    applyOps t ((save_manifest m mpath).take 1) mpath = some [] := by
  show (if mpath = mpath then some ([] : Str) else t mpath) = some []
  rw [if_pos rfl]

theorem save_manifest_no_rename (m : Manifest) (mpath : Str) :
    (save_manifest m mpath).all (fun op => !op.isRename) = true := rfl

theorem digitChar_isDigit {d : Nat} (h : d < 10) :
    (Nat.digitChar d).isDigit = true := by
  interval_cases d <;> decide

theorem natToStr_digits (n : Nat) :
    natToStr n ≠ [] ∧ ∀ c ∈ natToStr n, c.isDigit = true := by
  by_cases h : n < 10
  · rw [natToStr_unfold, if_pos h]
    refine ⟨by simp, ?_⟩
    intro c hc
    rw [List.mem_singleton.mp hc]
    exact digitChar_isDigit h
  · rw [natToStr_unfold, if_neg h]
    have ih := natToStr_digits (n / 10)
    constructor
    · simp
    · intro c hc
      rcases List.mem_append.mp hc with h1 | h2
      · exact ih.2 c h1
      · rw [List.mem_singleton.mp h2]
        exact digitChar_isDigit (Nat.mod_lt n (by omega))
termination_by n
decreasing_by exact Nat.div_lt_self (by omega) (by omega)

theorem pyInt_natToStr (n : Nat) : pyInt (natToStr n) = .ok n := by
  unfold pyInt
  rw [if_pos ⟨(natToStr_digits n).1, List.all_eq_true.mpr (natToStr_digits n).2⟩]
  have h0 := strToNatAcc_natToStr n 0
  rw [Nat.zero_mul, Nat.zero_add] at h0
  rw [h0]

theorem mapM_pyInt (m : Manifest) :
    (m.map (fun kv => (natToStr kv.1, kv.2))).mapM
      (fun kv => do pure ((← pyInt kv.1), kv.2)) = Except.ok m := by
  induction m with
  | nil => rfl
  | cons kv mm ih =>
    rw [List.map_cons, List.mapM_cons, ih]
    show (do
      let x ← (do pure ((← pyInt (natToStr kv.1)), kv.2) :
        Except PyErr (Nat × Entry))
      let y ← (Except.ok mm : Except PyErr Manifest)
      pure (x :: y)) = Except.ok (kv :: mm)
    rw [pyInt_natToStr]
    rfl

theorem load_manifest_roundtrip (m : Manifest) :
    load_manifest (some (.wellFormed (m.map (fun kv => (natToStr kv.1, kv.2)))))
      = .ok m := by
  unfold load_manifest jsonLoad
  exact mapM_pyInt m

/-! Helper lemmas about the partitioner wrapper. -/

theorem batched_nonneg {l : List Str} {n : Int} (h : ¬ n < 0) :
    batched l n = .ok (batchedNat l n.toNat) := by
  unfold batched
  rw [if_neg h]

theorem batched_neg {l : List Str} {n : Int} (h : n < 0) :
    batched l n = .error .valueError := by
  unfold batched
  rw [if_pos h]

/-! Claim theorems. -/

/-- Claim C10: hourly aggregation is idempotent — applying `hourly_aggregate`
    twice to any frame yields the same frame as applying it once, because
    flooring an already hour-floored timestamp is the identity and every
    (building_id, hour) group of the aggregated output is a singleton. -/
theorem claim10_hourly_aggregate_idempotent (df : List Row) :
    hourly_aggregate (hourly_aggregate df) = hourly_aggregate df :=
  hourly_aggregate_idem df

/-- Claim C4: rows are grouped by (entity id, hour) with at most one output
    row per key; the sum instance of the spec's configured reduction policy
    coincides with the source `hourly_aggregate`; and two raw records for
    entity A in the same clock hour with values 3.0 and 4.0 produce exactly
    one output row holding 7.0 under the sum policy and 3.5 under the mean
    policy. -/
theorem claim4_aggregation_policy :
    (∀ df : List Row,
      hourly_aggregate_policy ReducePolicy.sum df = hourly_aggregate df)
    ∧ (∀ (pol : ReducePolicy) (df : List Row),
        ((hourly_aggregate_policy pol df).map rowKey).Nodup)
    ∧ hourly_aggregate_policy ReducePolicy.sum dfScenario
        = [{ building_id := str "A", timestamp := 600, vals := [7] }]
    ∧ hourly_aggregate_policy ReducePolicy.mean dfScenario
        = [{ building_id := str "A", timestamp := 600, vals := [7/2] }] := by
  refine ⟨fun df => rfl, ?_, ?_, ?_⟩
  · intro pol df
    have hmk : (hourly_aggregate_policy pol df).map rowKey
        = aggKeys (floorRows df) := by
      unfold hourly_aggregate_policy
      rw [List.map_map]
      conv_rhs => rw [← List.map_id (aggKeys (floorRows df))]
      apply List.map_congr_left
      intro k _
      simp [Function.comp, rowKey_mk]
    rw [hmk]
    exact aggKeys_nodup _
  · have h1 : hourly_aggregate_policy ReducePolicy.sum dfScenario
        = [{ building_id := str "A", timestamp := 600, vals := [(3 : Rat) + 4] }] :=
      rfl
    rw [h1]
    norm_num
  · have h1 : hourly_aggregate_policy ReducePolicy.mean dfScenario
        = [{ building_id := str "A", timestamp := 600,
             vals := [((3 : Rat) + 4) / ((2 : Nat) : Rat)] }] := rfl
    rw [h1]
    norm_num

/-- Claim C6 counterexample: with batch size 0 the partitioner terminates and
    returns zero batches instead of failing, and with batch size -1 it raises
    ValueError; the code has no ConfigError, refuting the claimed error
    contract at a concrete input. -/
theorem claim6_counterexample :
    batched [str "a-0.parquet"] 0 = .ok ([] : List (List Str))
      ∧ batched [str "a-0.parquet"] (-1) = .error .valueError := by
  constructor
  · decide
  · decide

/-- Claim C6 (amended): for every path list and every positive batch size n,
    the partitioner yields exactly ceil(N/n) batches — contiguous,
    order-preserving slices whose concatenation equals the input, each
    nonempty of length at most n, and all but possibly the last of length
    exactly n; batch size 0 yields zero batches without error; a negative
    batch size raises ValueError (there is no ConfigError in the code). -/
theorem claim6_batched_contract (l : List Str) (n : Int) :
    (0 < n →
      batched l n = .ok (batchedNat l n.toNat)
      ∧ (batchedNat l n.toNat).flatten = l
      ∧ (batchedNat l n.toNat).length = (l.length + n.toNat - 1) / n.toNat
      ∧ (∀ b ∈ batchedNat l n.toNat, b ≠ [] ∧ b.length ≤ n.toNat)
      ∧ (∀ b ∈ (batchedNat l n.toNat).dropLast, b.length = n.toNat))
    ∧ batched l 0 = .ok []
    ∧ (n < 0 → batched l n = .error .valueError) := by
  refine ⟨?_, ?_, fun h => batched_neg h⟩
  · intro hn
    have hne : n.toNat ≠ 0 := by omega
    exact ⟨batched_nonneg (by omega), batchedNat_flatten hne l,
      batchedNat_length hne l, batchedNat_mem hne l, batchedNat_full hne l⟩
  · rw [batched_nonneg (by norm_num)]
    rw [show ((0 : Int).toNat) = 0 from rfl, batchedNat_zero]

/-- Witness for claim C6: the contract evaluated on a three-path list at
    batch size 2, and the ValueError outcome at batch size -1. -/
theorem claim6_batched_contract_witness :
    (batchedNat [str "x", str "y", str "z"] ((2 : Int)).toNat).flatten
        = [str "x", str "y", str "z"]
      ∧ (batchedNat [str "x", str "y", str "z"] ((2 : Int)).toNat).length
        = (([str "x", str "y", str "z"].length + (2 : Int).toNat - 1) / (2 : Int).toNat)
      ∧ batched [str "x", str "y", str "z"] (-1) = .error .valueError := by
  have h := claim6_batched_contract [str "x", str "y", str "z"] 2
  have hp := h.1 (by norm_num)
  exact ⟨hp.2.1, hp.2.2.1, (claim6_batched_contract [str "x", str "y", str "z"]
    (-1)).2.2 (by norm_num)⟩

/-- Claim C7 counterexample: a manifest file with unparsable contents makes
    `load_manifest` raise JSONDecodeError — not return the empty ledger as
    the claim states. -/
theorem claim7_counterexample :
    load_manifest (some .malformed) = .error .jsonDecodeError
      ∧ Except.error PyErr.jsonDecodeError ≠ Except.ok ([] : Manifest) := by
  constructor
  · rfl
  · intro h
    cases h

/-- Claim C7 (amended): a missing manifest file yields the empty ledger, and
    a well-formed file holding this pipeline's stringified integer keys loads
    back to its ledger; but unparsable contents are not tolerated — they
    raise JSONDecodeError, so only a missing file is treated as nothing done
    yet. -/
theorem claim7_load_manifest (m : Manifest) :
    load_manifest none = .ok []
      ∧ load_manifest
          (some (.wellFormed (m.map (fun kv => (natToStr kv.1, kv.2))))) = .ok m
      ∧ load_manifest (some .malformed) = .error .jsonDecodeError :=
  ⟨rfl, load_manifest_roundtrip m, rfl⟩

/-- Claim C3 counterexample: the save trace contains no rename operation (it
    is not write-to-temp-then-rename), and a crash after its first operation
    — the in-place truncate — leaves the manifest file empty, destroying the
    previously recorded two-entry ledger it held. -/
theorem claim3_counterexample :
    (save_manifest mUnsorted (str "m.json")).all (fun op => !op.isRename) = true
      ∧ applyOps tfsPrior ((save_manifest mUnsorted (str "m.json")).take 1)
          (str "m.json") = some []
      ∧ tfsPrior (str "m.json") = some (serialize_manifest mDone01)
      ∧ serialize_manifest mDone01 ≠ [] := by
  refine ⟨rfl, save_manifest_crash _ _ _, ?_, ?_⟩
  · show (if str "m.json" = str "m.json"
        then some (serialize_manifest mDone01) else none)
      = some (serialize_manifest mDone01)
    rw [if_pos rfl]
  · decide

/-- Claim C3 (amended): save does serialize the full ledger with keys
    ordered ascending (the serialized items are a permutation of the ledger
    sorted by key), but it writes in place: the trace truncates the manifest
    path and then writes the serialization there, with no temporary file and
    no rename; the completed trace leaves exactly the serialized ledger at
    the manifest path and touches no other file, while a crash between the
    truncate and the write leaves the file empty, losing previously recorded
    entries. -/
theorem claim3_save_manifest (m : Manifest) (mpath : Str) (t : TextFS) :
    List.Sorted (· ≤ ·) ((serializedItems m).map Prod.fst)
      ∧ (serializedItems m).Perm m
      ∧ (save_manifest m mpath).all (fun op => !op.isRename) = true
      ∧ applyOps t (save_manifest m mpath) mpath = some (serialize_manifest m)
      ∧ (∀ q, q ≠ mpath → applyOps t (save_manifest m mpath) q = t q)
      ∧ applyOps t ((save_manifest m mpath).take 1) mpath = some [] :=
  ⟨serializedItems_sorted m, serializedItems_perm m,
   save_manifest_no_rename m mpath, (save_manifest_apply m mpath t).1,
   (save_manifest_apply m mpath t).2, save_manifest_crash m mpath t⟩

/-- Witness for claim C3: saving an out-of-order two-entry ledger over a
    prior file rewrites exactly the manifest path and leaves another path
    alone. -/
theorem claim3_save_manifest_witness :
    applyOps tfsPrior (save_manifest mUnsorted (str "a/m.json")) (str "a/m.json")
        = some (serialize_manifest mUnsorted)
      ∧ applyOps tfsPrior (save_manifest mUnsorted (str "a/m.json")) (str "m.json")
        = tfsPrior (str "m.json") := by
  refine ⟨(claim3_save_manifest mUnsorted (str "a/m.json") tfsPrior).2.2.2.1, ?_⟩
  exact (claim3_save_manifest mUnsorted (str "a/m.json") tfsPrior).2.2.2.2.1
    (str "m.json") (by decide)

/-- Claim C9 counterexample: the file name x.parquet-0.parquet has the
    claimed conforming form id-0.parquet with the hyphen-free id x.parquet,
    yet the filter derives x.parquet while `extract_building_id` strips the
    .parquet suffix a second time and derives x, so the two derivations
    disagree on this input. -/
theorem claim9_counterexample :
    stemSplitId (str "x.parquet-0.parquet") = str "x.parquet"
      ∧ extract_building_id (str "x.parquet-0.parquet") = str "x"
      ∧ str "x.parquet" ≠ str "x" := by
  refine ⟨by decide, by decide, by decide⟩

/-- Claim C9 (amended): for every path whose file name has the form
    id-0.parquet with id containing no hyphen and not itself ending in
    ".parquet", the filter id (stem split at the first hyphen) equals
    `extract_building_id`, both giving id; for a file name id-n.parquet with
    n a digit string other than "0", the derivations differ — the filter id
    is id but the extracted id is id-n — so such a path can pass the filter
    under one id yet be tagged in the output with a different id. -/
theorem claim9_id_derivations (p q id1 id2 nstr : Str) :
    (basename p = id1 ++ str "-0.parquet" → '-' ∉ id1 →
      endsWith id1 (str ".parquet") = false →
      stemSplitId p = id1 ∧ extract_building_id p = id1)
    ∧ (basename q = id2 ++ '-' :: (nstr ++ str ".parquet") → '-' ∉ id2 →
      nstr ≠ [] → (∀ c ∈ nstr, c.isDigit = true) → nstr ≠ ['0'] →
      stemSplitId q = id2 ∧ extract_building_id q = id2 ++ '-' :: nstr
        ∧ stemSplitId q ≠ extract_building_id q) := by
  constructor
  · intro hb hh hp
    exact ⟨stemSplitId_conforming hb hh, extract_conforming hb hp⟩
  · intro hb hh hne hdig hz
    refine ⟨stemSplitId_notZero hb hh, extract_notZero hb hne hdig hz, ?_⟩
    rw [stemSplitId_notZero hb hh, extract_notZero hb hne hdig hz]
    intro hc
    have hlen := congrArg List.length hc
    simp only [List.length_append, List.length_cons] at hlen
    omega

/-- Witness for claim C9: the two derivations agree on d/A-0.parquet and
    disagree on B-5.parquet. -/
theorem claim9_id_derivations_witness :
    stemSplitId (str "d/A-0.parquet") = str "A"
      ∧ extract_building_id (str "d/A-0.parquet") = str "A"
      ∧ stemSplitId (str "B-5.parquet") ≠ extract_building_id (str "B-5.parquet") := by
  have h := claim9_id_derivations (str "d/A-0.parquet") (str "B-5.parquet")
    (str "A") (str "B") (str "5")
  have h1 := h.1 (by decide) (by decide) (by decide)
  have h2 := h.2 (by decide) (by decide) (by decide) (by decide) (by decide)
  exact ⟨h1.1, h1.2, h2.2.2⟩

/-- Claim C2 counterexample: in a batch of two paths whose second fetch
    raises FetchError, `read_batch` propagates the error — there is no
    per-path try/except in the worker — so the batch result is the raised
    error rather than a table holding the first path's aggregated rows,
    which the same worker does produce when the failing path is absent. -/
theorem claim2_counterexample :
    read_batch storeErr [str "good-0.parquet", str "bad-0.parquet"]
        = .error .fetchError
      ∧ read_batch storeErr [str "good-0.parquet"]
        = .ok [{ building_id := str "good", timestamp := 600, vals := [3] }] :=
  ⟨rfl, rfl⟩

/-- Claim C2 (amended): an error raised for a single path propagates out of
    the worker and aborts that whole batch; it is absorbed at the per-batch
    boundary in the orchestrator's completion handler instead: the failing
    batch's index stays out of the manifest and its output file is untouched
    (left pending for retry), while any other submitted batch that succeeds
    is still recorded with its aggregated rows and written output. -/
theorem claim2_error_absorption (store : Store) (state outdir : Str)
    (l : List (Nat × List Str)) (st : SysState) (i j : Nat)
    (batch batch2 : List Str) (e : PyErr) (en : Entry) (df : List Row)
    (hnd : (l.map Prod.fst).Nodup) (hmem : (i, batch) ∈ l)
    (hk : hasKey st.manifest i = false)
    (herr : process_batch store batch state (outputFileName outdir state i)
      = .error e)
    (hmem2 : (j, batch2) ∈ l) (hk2 : hasKey st.manifest j = false)
    (hok : process_batch store batch2 state (outputFileName outdir state j)
      = .ok (some (en, df))) :
    hasKey (runBatches store state outdir l st).1.manifest i = false
      ∧ lookupFile (runBatches store state outdir l st).1.files
          (outputFileName outdir state i)
        = lookupFile st.files (outputFileName outdir state i)
      ∧ lookupKey (runBatches store state outdir l st).1.manifest j = some en
      ∧ lookupFile (runBatches store state outdir l st).1.files
          (outputFileName outdir state j) = some df := by
  have h1 := runBatches_notDone
    (fun en2 df2 hc => by rw [herr] at hc; cases hc) l st hnd hmem hk
  have h2 := runBatches_entry hok l st hnd hmem2 hk2
  exact ⟨h1.1, h1.2, h2.1, h2.2⟩

/-- Witness for claim C2: a run over one failing and one succeeding batch
    leaves index 0 pending with no file and records index 1 with its rows. -/
theorem claim2_error_absorption_witness :
    hasKey (runBatches storeErr (str "CO") (str "out")
        [(0, [str "bad-0.parquet"]), (1, [str "good-0.parquet"])]
        { manifest := [], files := [] }).1.manifest 0 = false
      ∧ lookupKey (runBatches storeErr (str "CO") (str "out")
          [(0, [str "bad-0.parquet"]), (1, [str "good-0.parquet"])]
          { manifest := [], files := [] }).1.manifest 1
        = some { path := outputFileName (str "out") (str "CO") 1,
                 building_ids := [str "good"], state := str "CO" } := by
  have h := claim2_error_absorption storeErr (str "CO") (str "out")
    [(0, [str "bad-0.parquet"]), (1, [str "good-0.parquet"])]
    { manifest := [], files := [] } 0 1 [str "bad-0.parquet"]
    [str "good-0.parquet"] PyErr.fetchError
    { path := outputFileName (str "out") (str "CO") 1,
      building_ids := [str "good"], state := str "CO" }
    [{ building_id := str "good", timestamp := 600, vals := [3] }]
    (by decide) (by decide) rfl rfl (by decide) rfl rfl
  exact ⟨h.1, h.2.2.1⟩

/-- Claim C5 counterexample: with allowed set A, path list [A-5.parquet] and
    batch size 1, the path passes the filter under its stem-derived id A, but
    the worker tags its rows with the extracted id A-5, so a written batch
    output contains a row whose entity id lies outside the allowed set. -/
theorem claim5_counterexample :
    filter_allowed [str "A-5.parquet"] [str "A"] = [str "A-5.parquet"]
      ∧ lookupFile (process_state_in_batches storeOne (str "CO") (str "out")
          [str "A"] [str "A-5.parquet"] 1 { manifest := [], files := [] }).1.files
          (outputFileName (str "out") (str "CO") 0)
        = some [{ building_id := str "A-5", timestamp := 600, vals := [3] }]
      ∧ str "A-5" ∉ [str "A"] :=
  ⟨by decide, rfl, by decide⟩

/-- Claim C5 (amended): provided the two entity-id derivations agree on every
    filtered path — as they do on conforming names id-0.parquet with
    hyphen-free ids — no row of any output file written by a run over a fresh
    output directory has an entity id outside the allowed set, for any batch
    size, store and prior manifest. -/
theorem claim5_filter_correctness (store : Store) (state outdir : Str)
    (allowed paths : List Str) (batch_size : Nat) (m0 : Manifest)
    (hagree : ∀ p ∈ filter_allowed paths allowed,
      extract_building_id p = stemSplitId p) :
    ∀ f rows, lookupFile (process_state_in_batches store state outdir allowed
        paths batch_size { manifest := m0, files := [] }).1.files f = some rows →
      ∀ r ∈ rows, r.building_id ∈ allowed := by
  unfold process_state_in_batches
  apply runBatches_filesP (fun r => r.building_id ∈ allowed)
  · intro ib hib en df hok r hr
    obtain ⟨hrb, _⟩ := process_batch_inv hok
    obtain ⟨p, hp, hbid⟩ := read_batch_rows hrb r hr
    have hbs : ib.2 ∈ batchedNat (filter_allowed paths allowed) batch_size := by
      obtain ⟨i, b⟩ := ib
      exact mem_enum_snd hib
    have hpfps : p ∈ filter_allowed paths allowed := by
      by_cases hbz : batch_size = 0
      · rw [hbz, batchedNat_zero] at hbs
        cases hbs
      · exact batchedNat_sub hbs hbz p hp
    rw [hbid, hagree p hpfps]
    exact (filter_allowed_mem hpfps).1
  · intro f rows hlk
    cases hlk

/-- Witness for claim C5: on the conforming path A-0.parquet the run's single
    output row carries entity id A, inside the allowed set. -/
theorem claim5_filter_correctness_witness :
    ({ building_id := str "A", timestamp := 600, vals := [3] } : Row).building_id
      ∈ [str "A"] := by
  apply claim5_filter_correctness storeOne (str "CO") (str "out") [str "A"]
    [str "A-0.parquet"] 1 [] (by decide)
    (outputFileName (str "out") (str "CO") 0)
    [{ building_id := str "A", timestamp := 600, vals := [3] }] rfl
  exact List.mem_singleton.mpr rfl

/-- Claim C8 counterexample: with paths A-0.parquet and B-0.parquet, allowed
    set A and batch size 1, the allowed-set filter runs before batching, so
    B's path is dropped before batches are formed and only one batch exists —
    not the claimed two batches with an empty batch 1. -/
theorem claim8_counterexample :
    filter_allowed pathsAB [str "A"] = [str "A-0.parquet"]
      ∧ (batchedNat (filter_allowed pathsAB [str "A"]) 1).length = 1 :=
  ⟨by decide, by decide⟩

/-- Claim C8 (amended): a batch whose fetched rows aggregate to zero rows
    makes the worker return the explicit empty marker, and the orchestrator
    then records no manifest entry and leaves the batch's output file
    untouched; in the concrete scenario, filtering precedes batching, so the
    two paths with allowed set A and batch size 1 yield a single batch whose
    output holds only A's aggregated rows, exactly one output file, and a
    final manifest with exactly one entry. -/
theorem claim8_empty_batch (store : Store) (state outdir : Str)
    (l : List (Nat × List Str)) (st : SysState) (i : Nat) (batch : List Str)
    (hnd : (l.map Prod.fst).Nodup) (hmem : (i, batch) ∈ l)
    (hk : hasKey st.manifest i = false)
    (hempty : read_batch store batch = .ok []) :
    process_batch store batch state (outputFileName outdir state i) = .ok none
      ∧ hasKey (runBatches store state outdir l st).1.manifest i = false
      ∧ lookupFile (runBatches store state outdir l st).1.files
          (outputFileName outdir state i)
        = lookupFile st.files (outputFileName outdir state i)
      ∧ (process_state_in_batches storeAB (str "CO") (str "out") [str "A"]
          pathsAB 1 { manifest := [], files := [] }).1.manifest
        = [(0, { path := outputFileName (str "out") (str "CO") 0,
                 building_ids := [str "A"], state := str "CO" })]
      ∧ lookupFile (process_state_in_batches storeAB (str "CO") (str "out")
          [str "A"] pathsAB 1 { manifest := [], files := [] }).1.files
          (outputFileName (str "out") (str "CO") 0)
        = some [{ building_id := str "A", timestamp := 600, vals := [3 + 4] }]
      ∧ (process_state_in_batches storeAB (str "CO") (str "out") [str "A"]
          pathsAB 1 { manifest := [], files := [] }).1.files.length = 1 := by
  have hpb : process_batch store batch state (outputFileName outdir state i)
      = .ok none :=
    process_batch_none hempty
  have hnot := runBatches_notDone
    (fun en df hc => by rw [hpb] at hc; cases hc) l st hnd hmem hk
  exact ⟨hpb, hnot.1, hnot.2, rfl, rfl, rfl⟩

/-- Witness for claim C8: a batch whose only object holds zero rows returns
    the empty marker and leaves the manifest without its index. -/
theorem claim8_empty_batch_witness :
    process_batch storeEmptyB [str "B-0.parquet"] (str "CO")
        (outputFileName (str "out") (str "CO") 0) = .ok none
      ∧ hasKey (runBatches storeEmptyB (str "CO") (str "out")
          [(0, [str "B-0.parquet"])] { manifest := [], files := [] }).1.manifest 0
        = false := by
  have h := claim8_empty_batch storeEmptyB (str "CO") (str "out")
    [(0, [str "B-0.parquet"])] { manifest := [], files := [] } 0
    [str "B-0.parquet"] (by decide) (by decide) (by decide) rfl
  exact ⟨h.1, h.2.1⟩

/-- Claim C1: a batch index already present in the loaded manifest is never
    resubmitted — the submitted indices are exactly the enumerated batch
    indices missing from the prior manifest (so with indices 0 and 1 done out
    of four batches, only 2 and 3 are processed) — the output files of done
    indices are untouched, and when every filtered path fetches nonempty
    rows, a second run over the unchanged path list returns the first run's
    state unchanged (identical manifest, identical files) and processes zero
    batches. -/
theorem claim1_resume_idempotent (store : Store) (state outdir : Str)
    (allowed paths : List Str) (batch_size : Nat) (m0 : Manifest)
    (files0 : FileSys)
    (hrows : ∀ p ∈ filter_allowed paths allowed,
      ∃ rs, store p = .ok rs ∧ rs ≠ []) :
    ((process_state_in_batches store state outdir allowed paths batch_size
        { manifest := m0, files := files0 }).2
      = (((batchedNat (filter_allowed paths allowed) batch_size).enum).filter
          (fun ib => !hasKey m0 ib.1)).map Prod.fst)
    ∧ (∀ i, hasKey m0 i = true →
        lookupFile (process_state_in_batches store state outdir allowed paths
            batch_size { manifest := m0, files := files0 }).1.files
          (outputFileName outdir state i)
        = lookupFile files0 (outputFileName outdir state i))
    ∧ (process_state_in_batches store state outdir allowed paths batch_size
        (process_state_in_batches store state outdir allowed paths batch_size
          { manifest := m0, files := files0 }).1)
      = ((process_state_in_batches store state outdir allowed paths batch_size
          { manifest := m0, files := files0 }).1, []) := by
  refine ⟨?_, ?_, ?_⟩
  · exact runBatches_processed
      ((batchedNat (filter_allowed paths allowed) batch_size).enum)
      { manifest := m0, files := files0 } (enum_fst_nodup _)
  · intro i hk
    exact runBatches_untouched
      ((batchedNat (filter_allowed paths allowed) batch_size).enum)
      { manifest := m0, files := files0 } hk
  · have hok : ∀ ib ∈ (batchedNat (filter_allowed paths allowed) batch_size).enum,
        hasKey ({ manifest := m0, files := files0 } : SysState).manifest ib.1 = false →
        ∃ en df, process_batch store ib.2 state (outputFileName outdir state ib.1)
          = .ok (some (en, df)) := by
      intro ib hib _
      obtain ⟨i, b⟩ := ib
      have hbmem : b ∈ batchedNat (filter_allowed paths allowed) batch_size :=
        mem_enum_snd hib
      have hbz : batch_size ≠ 0 := by
        intro hc
        rw [hc, batchedNat_zero] at hbmem
        cases hbmem
      have hbne : b ≠ [] :=
        (batchedNat_mem hbz (filter_allowed paths allowed) b hbmem).1
      have hsub := batchedNat_sub hbmem hbz
      exact process_batch_ok_some hbne (fun p hp => hrows p (hsub p hp))
    have hdone := runBatches_allDone
      ((batchedNat (filter_allowed paths allowed) batch_size).enum)
      { manifest := m0, files := files0 } hok
    exact runBatches_skipAll
      ((batchedNat (filter_allowed paths allowed) batch_size).enum) _ hdone

/-- Witness for claim C1: four conforming paths at batch size 1 with indices
    0 and 1 already done — the run submits exactly indices 2 and 3, batch 0's
    output file stays absent as before the run, and a second run returns the
    first run's state with zero submitted batches. -/
theorem claim1_resume_idempotent_witness :
    (process_state_in_batches storeOne (str "CO") (str "out") ids4 paths4 1
        { manifest := mDone01, files := [] }).2 = [2, 3]
      ∧ lookupFile (process_state_in_batches storeOne (str "CO") (str "out")
          ids4 paths4 1 { manifest := mDone01, files := [] }).1.files
          (outputFileName (str "out") (str "CO") 0)
        = lookupFile [] (outputFileName (str "out") (str "CO") 0)
      ∧ (process_state_in_batches storeOne (str "CO") (str "out") ids4 paths4 1
          (process_state_in_batches storeOne (str "CO") (str "out") ids4 paths4 1
            { manifest := mDone01, files := [] }).1)
        = ((process_state_in_batches storeOne (str "CO") (str "out") ids4 paths4 1
            { manifest := mDone01, files := [] }).1, []) := by
  have h := claim1_resume_idempotent storeOne (str "CO") (str "out") ids4 paths4
    1 mDone01 [] (fun p _ => ⟨[(605, [3])], rfl, by decide⟩)
  refine ⟨?_, h.2.1 0 (by decide), h.2.2⟩
  rw [h.1]
  decide

end ResStock
